import Mathlib

/-!
Verification development for the typed configuration registry in
`src/config.h` (namespace `zjl`): the `LexicalCast` converter family,
`ConfigVar` (typed variable), the `Config` registry
(`Lookup` overloads, `LoadFromYAML`, `TraversalNode`).

The document tree and its text form are those of the external parser
collaborator (yaml-cpp), modelled below by `YamlNode`, `yamlDump` and
`yamlLoad`.
-/

namespace ConfigSpec

/-- Modelled from the spec: the external parser's Document Tree, "a tagged
value that is one of scalar-text, ordered-sequence-of-node,
ordered-map-of-string-to-node" (plus the undefined/null node yaml-cpp
starts from). -/
inductive YamlNode where
  | null : YamlNode
  | scalar : String → YamlNode
  | seq : List YamlNode → YamlNode
  | map : List (String × YamlNode) → YamlNode

open YamlNode

/- Modelled from the spec: serializing a node back to text (the external
collaborator's `operator<<`), in a canonical flow style. -/
mutual
def dumpChars : YamlNode → List Char
  | .null => ['~']
  | .scalar s => s.data
  | .seq xs => '[' :: (dumpItemsChars xs ++ [']'])
  | .map kvs => '\x7b' :: (dumpEntriesChars kvs ++ ['\x7d'])

def dumpItemsChars : List YamlNode → List Char
  | [] => []
  | [x] => dumpChars x
  | x :: y :: ys => dumpChars x ++ ',' :: dumpItemsChars (y :: ys)

def dumpEntriesChars : List (String × YamlNode) → List Char
  | [] => []
  | [(k, v)] => k.data ++ ':' :: dumpChars v
  | (k, v) :: e :: es => k.data ++ ':' :: dumpChars v ++ ',' :: dumpEntriesChars (e :: es)
end

def yamlDump (n : YamlNode) : String := ⟨dumpChars n⟩

/-- Characters a scalar token may contain in the modelled text form. -/
def scalarPred (c : Char) : Bool := !(c == ',' || c == ']' || c == '\x7d')

/-- Characters a map key may contain in the modelled text form. -/
def keyPred (c : Char) : Bool := !(c == ':' || c == ',' || c == ']' || c == '\x7d')

/-- Well-formed scalar text: nonempty, not the null token, does not begin a
collection, contains no delimiter characters. -/
def scalarOK (s : String) : Bool :=
  (match s.data with
   | [] => false
   | c :: _ => !(c == '[' || c == '\x7b')) &&
  s.data.all scalarPred && !(s == "~")

def keyOK (k : String) : Bool := !(k.data.isEmpty) && k.data.all keyPred

/- Well-formed document trees: the fragment on which the modelled
serializer and parser invert each other. -/
mutual
def WFb : YamlNode → Bool
  | .null => true
  | .scalar s => scalarOK s
  | .seq xs => WFbList xs
  | .map kvs => WFbEntries kvs

def WFbList : List YamlNode → Bool
  | [] => true
  | x :: xs => WFb x && WFbList xs

def WFbEntries : List (String × YamlNode) → Bool
  | [] => true
  | (k, v) :: es => keyOK k && WFb v && WFbEntries es
end

/- Fuel measure for the modelled parser. -/
mutual
def ysize : YamlNode → Nat
  | .null => 1
  | .scalar _ => 1
  | .seq xs => 1 + ysizeItems xs
  | .map kvs => 1 + ysizeEntries kvs

def ysizeItems : List YamlNode → Nat
  | [] => 0
  | x :: xs => 1 + ysize x + ysizeItems xs

def ysizeEntries : List (String × YamlNode) → Nat
  | [] => 0
  | (_, v) :: es => 1 + ysize v + ysizeEntries es
end

/- Modelled from the spec: the external parser (`YAML::Load`), a
recursive-descent reader of the canonical flow text form; `none` models a
parse exception. -/
mutual
def parseNode : Nat → List Char → Option (YamlNode × List Char)
  | 0, _ => none
  | _ + 1, [] => none
  | fuel + 1, c :: rest =>
    if c = '[' then
      if rest.head? = some ']' then some (.seq [], rest.tail)
      else
        match parseItems fuel rest with
        | some (ns, rest2) => some (.seq ns, rest2)
        | none => none
    else if c = '\x7b' then
      if rest.head? = some '\x7d' then some (.map [], rest.tail)
      else
        match parseEntries fuel rest with
        | some (es, rest2) => some (.map es, rest2)
        | none => none
    else
      let s := (c :: rest).takeWhile scalarPred
      if s.isEmpty then none
      else if s = ['~'] then some (.null, (c :: rest).dropWhile scalarPred)
      else some (.scalar ⟨s⟩, (c :: rest).dropWhile scalarPred)

def parseItems : Nat → List Char → Option (List YamlNode × List Char)
  | 0, _ => none
  | fuel + 1, l =>
    match parseNode fuel l with
    | some (n, rest) =>
      if rest.head? = some ',' then
        match parseItems fuel rest.tail with
        | some (ns, rest2) => some (n :: ns, rest2)
        | none => none
      else if rest.head? = some ']' then some ([n], rest.tail)
      else none
    | none => none

def parseEntries : Nat → List Char → Option (List (String × YamlNode) × List Char)
  | 0, _ => none
  | fuel + 1, l =>
    let kcs := l.takeWhile keyPred
    let r1 := l.dropWhile keyPred
    if kcs.isEmpty then none
    else if r1.head? = some ':' then
      match parseNode fuel r1.tail with
      | some (n, rest) =>
        if rest.head? = some ',' then
          match parseEntries fuel rest.tail with
          | some (es, rest2) => some ((⟨kcs⟩, n) :: es, rest2)
          | none => none
        else if rest.head? = some '\x7d' then some ([(⟨kcs⟩, n)], rest.tail)
        else none
      | none => none
    else none
end

def yamlLoad (s : String) : Option YamlNode :=
  match parseNode (s.data.length + 1) s.data with
  | some (n, []) => some n
  | _ => none


/-! Models of the conversions in `src/config.h`. -/

def digitChar (d : Nat) : Char := Char.ofNat (48 + d)

/-- Decimal digits of `n`, least significant first, with fuel (the plain
`n / 10` recursion, made structurally terminating). -/
def natDigitsRevF : Nat → Nat → List Char
  | 0, _ => []
  | fuel + 1, n =>
    if n < 10 then [digitChar n] else digitChar (n % 10) :: natDigitsRevF fuel (n / 10)

def natDigits (n : Nat) : List Char := (natDigitsRevF (n + 1) n).reverse

/-- Model of `boost::lexical_cast<std::string>(int)`: canonical decimal text. -/
def intToString : Int → String
  | .ofNat n => ⟨natDigits n⟩
  | .negSucc n => ⟨'-' :: natDigits (n + 1)⟩

def digitsToNat (ds : List Char) : Nat :=
  ds.foldl (fun a c => a * 10 + (c.toNat - 48)) 0

def parseDigits (ds : List Char) : Option Nat :=
  if !ds.isEmpty && ds.all Char.isDigit then some (digitsToNat ds) else none

/-- Model of `boost::lexical_cast<int>(std::string)`: strict decimal parse of
the whole text (optional sign, at least one digit); `none` models the
`bad_lexical_cast` exception. -/
def parseIntStrict (s : String) : Option Int :=
  match s.data with
  | [] => none
  | c :: cs =>
    if c = '-' then (parseDigits cs).map (fun n => -(n : Int))
    else if c = '+' then (parseDigits cs).map (fun n => (n : Int))
    else (parseDigits (c :: cs)).map (fun n => (n : Int))


/-- The sequence node built by repeated `push_back` starting from a
default-constructed (null) `YAML::Node`: null when no element was pushed. -/
def seqOfNodes : List YamlNode → YamlNode
  | [] => .null
  | ns => .seq ns

/-- Model of `LexicalCast<std::string, std::vector<T>>::operator()`
(config.h:64-90): parse the text (`YAML::Load`, failure = exception =
`none`); if the node is a sequence, re-serialize each child and decode it
recursively (a child failure propagates); otherwise log and return the
empty container. -/
def lexCastStringToVec {α : Type} (decT : String → Option α) (source : String) :
    Option (List α) :=
  match yamlLoad source with
  | none => none
  | some (.seq items) => items.mapM (fun item => decT (yamlDump item))
  | some _ => some []

/-- Model of `LexicalCast<std::vector<T>, std::string>::operator()`
(config.h:96-111): encode each element, re-parse it into a node
(`YAML::Load`, failure = exception = `none`), `push_back` it, then
serialize the assembled node. -/
def lexCastVecToString {α : Type} (encT : α → Option String) (source : List α) :
    Option String :=
  match source.mapM (fun item => (encT item).bind yamlLoad) with
  | some ns => some (yamlDump (seqOfNodes ns))
  | none => none

/-- Model of `LexicalCast<std::string, std::list<T>>::operator()`
(config.h:117-139); the algorithm is identical to the vector overload. -/
def lexCastStringToList {α : Type} (decT : String → Option α) (source : String) :
    Option (List α) :=
  match yamlLoad source with
  | none => none
  | some (.seq items) => items.mapM (fun item => decT (yamlDump item))
  | some _ => some []

/-- Model of `LexicalCast<std::list<T>, std::string>::operator()`
(config.h:145-157). -/
def lexCastListToString {α : Type} (encT : α → Option String) (source : List α) :
    Option String :=
  match source.mapM (fun item => (encT item).bind yamlLoad) with
  | some ns => some (yamlDump (seqOfNodes ns))
  | none => none

/-! Model of `ConfigVar<T>` / `ConfigVarBase`. -/

def toLowerStr (s : String) : String := ⟨s.data.map Char.toLower⟩

/-- Model of `ConfigVar<T>` (also carrying the `ConfigVarBase` fields); the
conversion functors are passed explicitly where needed, mirroring the
`ToStringFN` / `FromStringFN` template parameters. -/
structure ConfigVar (T : Type) where
  m_name : String
  m_description : String
  m_value : T
deriving Repr

/-- Model of the `ConfigVarBase`/`ConfigVar` constructor: the stored name is
the argument lower-cased (config.h:25-28). -/
def mkConfigVar {T : Type} (name : String) (value : T) (description : String) :
    ConfigVar T :=
  ⟨toLowerStr name, description, value⟩

/-- Model of `ConfigVar::toString` (config.h:180-191): encode the held
value; an encode failure (caught exception) yields the sentinel text. -/
def ConfigVar.toText {T : Type} (cv : ConfigVar T) (enc : T → Option String) : String :=
  match enc cv.m_value with
  | some s => s
  | none => "<error>"

/-- Model of `ConfigVar::fromString` (config.h:193-205): decode the text;
on success replace the held value and return true, on failure (caught
exception) keep the value and return false. -/
def ConfigVar.fromText {T : Type} (cv : ConfigVar T) (dec : String → Option T)
    (val : String) : ConfigVar T × Bool :=
  match dec val with
  | some v => ({ cv with m_value := v }, true)
  | none => (cv, false)

/-! Model of the registry `Config`. The C++ template instantiations are
represented by a universe of value types; `dynamic_pointer_cast` to
`ConfigVar<T>` succeeds exactly when the stored type tag is `T`. -/

inductive CType where
  | tInt : CType
  | tString : CType
  | tVecInt : CType
  | tListInt : CType
  | tVecVecInt : CType
deriving DecidableEq, Repr

@[reducible] def CVal : CType → Type
  | .tInt => Int
  | .tString => String
  | .tVecInt => List Int
  | .tListInt => List Int
  | .tVecVecInt => List (List Int)

/-- The default `FromStringFN = LexicalCast<std::string, T>` for each
represented type. -/
def lexDecode : (t : CType) → String → Option (CVal t)
  | .tInt => parseIntStrict
  | .tString => fun s => some s
  | .tVecInt => lexCastStringToVec parseIntStrict
  | .tListInt => lexCastStringToList parseIntStrict
  | .tVecVecInt => lexCastStringToVec (lexCastStringToVec parseIntStrict)

/-- A type-erased registry slot: `ConfigVarBase::ptr` together with the
dynamic type it was created at. -/
structure ConfigEntry where
  type : CType
  var : ConfigVar (CVal type)

abbrev ConfigVarMap := List (String × ConfigEntry)

namespace Config

/-- Model of the untyped `Config::Lookup(name)` (config.h:216-223). -/
def Lookup (name : String) (s_data : ConfigVarMap) : Option ConfigEntry :=
  match s_data.find? (fun p => p.1 == name) with
  | some p => some p.2
  | none => none

/-- Model of the typed `Config::Lookup<T>(name)` (config.h:226-234):
untyped lookup followed by a checked downcast. -/
def LookupTyped (t : CType) (name : String) (s_data : ConfigVarMap) :
    Option (ConfigVar (CVal t)) :=
  match Lookup name s_data with
  | some e => if h : e.type = t then some (h ▸ e.var) else none
  | none => none

/-- The character set of `name.find_first_not_of` in config.h:249. -/
def validNameChars : List Char := "qwertyuiopasdfghjklzxcvbnm0123456789._".data

/-- Name is accepted iff `find_first_not_of` returns `npos`: every character
belongs to the set. -/
def validName (name : String) : Bool :=
  name.data.all (fun c => validNameChars.contains c)

/-- Model of `s_data[name] = v` on a `std::map`: replace the mapped value
if the key exists, insert otherwise. -/
def insertReg (name : String) (e : ConfigEntry) : ConfigVarMap → ConfigVarMap
  | [] => [(name, e)]
  | (k, e') :: rest =>
    if k = name then (k, e) :: rest else (k, e') :: insertReg name e rest

/-- Model of the declare-or-fetch `Config::Lookup(name, value, description)`
(config.h:237-259): typed lookup first; on hit return the hit unchanged;
otherwise validate the raw name (throw = `none`) and insert a fresh
variable. -/
def LookupDeclare (t : CType) (name : String) (value : CVal t)
    (description : String) (s_data : ConfigVarMap) :
    Option (ConfigVar (CVal t) × ConfigVarMap) :=
  match LookupTyped t name s_data with
  | some tmp => some (tmp, s_data)
  | none =>
    if validName name then
      let v : ConfigVar (CVal t) := mkConfigVar name value description
      some (v, insertReg name ⟨t, v⟩ s_data)
    else none

/-- Model of the `std::find_if` + in-place assignment in
`Config::TraversalNode` (config.h:293-303): overwrite the first entry
with this path, keeping its position. -/
def replaceFirst (output : List (String × YamlNode)) (name : String)
    (node : YamlNode) : List (String × YamlNode) :=
  match output with
  | [] => []
  | (k, v) :: rest =>
    if k = name then (k, node) :: rest else (k, v) :: replaceFirst rest name node

def recordNode (name : String) (node : YamlNode)
    (output : List (String × YamlNode)) : List (String × YamlNode) :=
  if output.any (fun p => p.1 == name) then replaceFirst output name node
  else output ++ [(name, node)]

/- Model of `Config::TraversalNode` (config.h:290-320): record the node at
the current path, then recurse into map children (dot-joined keys, key
alone at the empty path) and sequence children (always dot-joined decimal
indices). -/
mutual
def TraversalNode (node : YamlNode) (name : String)
    (output : List (String × YamlNode)) : List (String × YamlNode) :=
  match node with
  | .map kvs => TraversalEntries kvs name (recordNode name node output)
  | .seq xs => TraversalList xs name 0 (recordNode name node output)
  | _ => recordNode name node output

def TraversalEntries : List (String × YamlNode) → String →
    List (String × YamlNode) → List (String × YamlNode)
  | [], _, out => out
  | (k, child) :: rest, name, out =>
    TraversalEntries rest name
      (TraversalNode child (if name.isEmpty then k else name ++ "." ++ k) out)

def TraversalList : List YamlNode → String → Nat →
    List (String × YamlNode) → List (String × YamlNode)
  | [], _, _, out => out
  | x :: rest, name, i, out =>
    TraversalList rest name (i + 1)
      (TraversalNode x (name ++ "." ++ Nat.repr i) out)
end

/-- Application of `fromString` through the type-erased base pointer, as in
`s_data[item.first]->fromString(ss.str())`. -/
def applyFromString (e : ConfigEntry) (text : String) : ConfigEntry :=
  ⟨e.type, (e.var.fromText (lexDecode e.type) text).1⟩

def updateReg (name : String) (text : String) (s_data : ConfigVarMap) :
    ConfigVarMap :=
  s_data.map (fun p => if p.1 = name then (p.1, applyFromString p.2 text) else p)

/-- One iteration of the loop in `Config::LoadFromYAML` (config.h:267-285):
a flattened pair whose path is registered is serialized back to text and
applied; any other pair is ignored. -/
def loadStep (s_data : ConfigVarMap) (item : String × YamlNode) : ConfigVarMap :=
  match Lookup item.1 s_data with
  | some _ => updateReg item.1 (yamlDump item.2) s_data
  | none => s_data

/-- Model of `Config::LoadFromYAML` (config.h:262-286). -/
def LoadFromYAML (root : YamlNode) (s_data : ConfigVarMap) : ConfigVarMap :=
  (TraversalNode root "" []).foldl loadStep s_data

end Config

/-- A registry operation, for stating whole-lifecycle invariants. -/
inductive RegOp where
  | lookupOp (name : String) : RegOp
  | lookupTypedOp (t : CType) (name : String) : RegOp
  | declareOp (t : CType) (name : String) (value : CVal t) (description : String) : RegOp
  | loadOp (root : YamlNode) : RegOp

/-- Effect of one operation on the registry state (lookups are pure; a
throwing declaration leaves the state unchanged). -/
def applyOp (s_data : ConfigVarMap) : RegOp → ConfigVarMap
  | .lookupOp _ => s_data
  | .lookupTypedOp _ _ => s_data
  | .declareOp t name v d =>
    match Config.LookupDeclare t name v d s_data with
    | some (_, st') => st'
    | none => s_data
  | .loadOp root => Config.LoadFromYAML root s_data

/-- Registry state after a sequence of operations from the empty registry. -/
def runOps (ops : List RegOp) : ConfigVarMap := ops.foldl applyOp []

/- Specification-shaped depth-first pre-order listing of a document tree
(append-only, no de-duplication); `Config.TraversalNode` is proved to be
the in-place-de-duplicating fold of this listing. -/
mutual
def preorderNode (node : YamlNode) (name : String) : List (String × YamlNode) :=
  (name, node) ::
    (match node with
     | .map kvs => preorderEntries kvs name
     | .seq xs => preorderList xs name 0
     | _ => [])

def preorderEntries : List (String × YamlNode) → String → List (String × YamlNode)
  | [], _ => []
  | (k, child) :: rest, name =>
    preorderNode child (if name.isEmpty then k else name ++ "." ++ k) ++
      preorderEntries rest name

def preorderList : List YamlNode → String → Nat → List (String × YamlNode)
  | [], _, _ => []
  | x :: rest, name, i =>
    preorderNode x (name ++ "." ++ Nat.repr i) ++ preorderList rest name (i + 1)
end

/-- The character following a serialized node inside a larger serialized
form (or end of input). -/
def sdelim : List Char → Bool
  | [] => true
  | c :: _ => c == ',' || c == ']' || c == '\x7d'

/-- Text whose parse re-serializes to the same text (true of every text the
modelled parser accepts). -/
def parseStable (s : String) : Bool :=
  match yamlLoad s with
  | some n => yamlDump n == s
  | none => false

/-- An element value round-trips through its converter pair: its encoding
succeeds, decodes back to the value, and is parse-stable. -/
def elemRT {α : Type} [DecidableEq α] (encT : α → Option String)
    (decT : String → Option α) (a : α) : Bool :=
  match encT a with
  | some s => decide (decT s = some a) && parseStable s
  | none => false

/-- Every key is in the canonical charset, lower-casing fixes it, and it
equals the stored variable's name. -/
def RegInv (st : ConfigVarMap) : Prop :=
  ∀ p ∈ st, Config.validName p.1 = true ∧ toLowerStr p.1 = p.1 ∧
    p.2.var.m_name = p.1

def exTree : YamlNode :=
  .map [("a", .map [("b", .scalar "1"), ("c", .seq [.scalar "2", .scalar "3"])])]

def collTree : YamlNode :=
  .map [("a", .map [("b", .scalar "1")]), ("a.b", .scalar "2")]

/-! Parser/serializer inversion on well-formed trees. -/

lemma takeWhile_nil_dropWhile {p : Char → Bool} {l : List Char}
    (h : l.takeWhile p = []) : l.dropWhile p = l := by
  cases l with
  | nil => rfl
  | cons c cs =>
    rw [List.takeWhile_cons] at h
    by_cases hp : p c
    · simp [hp] at h
    · simp [List.dropWhile_cons, hp]

lemma takeWhile_app {p : Char → Bool} {xs rest : List Char}
    (h : ∀ c ∈ xs, p c = true) (hr : rest.takeWhile p = []) :
    (xs ++ rest).takeWhile p = xs ∧ (xs ++ rest).dropWhile p = rest := by
  induction xs with
  | nil => exact ⟨hr, takeWhile_nil_dropWhile hr⟩
  | cons c cs ih =>
    have hc : p c = true := h c (by simp)
    have ih' := ih (fun d hd => h d (by simp [hd]))
    simp only [List.cons_append, List.takeWhile_cons_of_pos hc,
      List.dropWhile_cons_of_pos hc, ih'.1, ih'.2, and_self]

/-- Head of the serialized form of a well-formed node is never a delimiter. -/
lemma dumpChars_head {n : YamlNode} (h : WFb n = true) :
    ∃ c cs, dumpChars n = c :: cs ∧ (c == ',' || c == ']' || c == '\x7d') = false := by
  cases n with
  | null => exact ⟨'~', [], rfl, by decide⟩
  | scalar s =>
    rw [WFb, scalarOK] at h
    simp only [Bool.and_eq_true] at h
    obtain ⟨⟨h1, h2⟩, _⟩ := h
    cases hs : s.data with
    | nil => rw [hs] at h1; simp at h1
    | cons c cs =>
      refine ⟨c, cs, by simp [dumpChars, hs], ?_⟩
      have hc : scalarPred c = true := by
        rw [hs, List.all_cons, Bool.and_eq_true] at h2; exact h2.1
      rw [scalarPred] at hc
      simpa using hc
  | seq xs => exact ⟨'[', _, rfl, by decide⟩
  | map kvs => exact ⟨'\x7b', _, rfl, by decide⟩

lemma dumpItemsChars_head {x : YamlNode} {xs : List YamlNode} (h : WFb x = true) :
    ∃ c cs', dumpItemsChars (x :: xs) = c :: cs' ∧
      (c == ',' || c == ']' || c == '\x7d') = false := by
  obtain ⟨c, cs, hd, hne⟩ := dumpChars_head h
  cases xs with
  | nil => exact ⟨c, cs, by simp [dumpItemsChars, hd], hne⟩
  | cons y ys =>
    exact ⟨c, cs ++ ',' :: dumpItemsChars (y :: ys), by simp [dumpItemsChars, hd], hne⟩

lemma dumpEntriesChars_head {k : String} {v : YamlNode}
    {es : List (String × YamlNode)} (h : keyOK k = true) :
    ∃ c cs', dumpEntriesChars ((k, v) :: es) = c :: cs' ∧ keyPred c = true := by
  rw [keyOK, Bool.and_eq_true] at h
  obtain ⟨hne, hall⟩ := h
  cases hk : k.data with
  | nil => rw [hk] at hne; simp at hne
  | cons c cs =>
    have hc : keyPred c = true := by
      rw [hk, List.all_cons, Bool.and_eq_true] at hall; exact hall.1
    cases es with
    | nil => exact ⟨c, cs ++ ':' :: dumpChars v, by simp [dumpEntriesChars, hk], hc⟩
    | cons e es' =>
      exact ⟨c, cs ++ ':' :: dumpChars v ++ ',' :: dumpEntriesChars (e :: es'),
        by simp [dumpEntriesChars, hk], hc⟩

lemma ysize_pos (n : YamlNode) : 1 ≤ ysize n := by
  cases n <;> simp [ysize]

lemma ysizeItems_pos {xs : List YamlNode} (h : xs ≠ []) : 1 ≤ ysizeItems xs := by
  cases xs with
  | nil => exact absurd rfl h
  | cons x xs => simp [ysizeItems]; omega

lemma ysizeEntries_pos {es : List (String × YamlNode)} (h : es ≠ []) :
    1 ≤ ysizeEntries es := by
  cases es with
  | nil => exact absurd rfl h
  | cons e es => obtain ⟨k, v⟩ := e; simp [ysizeEntries]; omega



lemma sdelim_takeWhile {rest : List Char} (h : sdelim rest = true) :
    rest.takeWhile scalarPred = [] := by
  cases rest with
  | nil => rfl
  | cons c cs =>
    rw [sdelim] at h
    exact List.takeWhile_cons_of_neg (by simp [scalarPred, h])

lemma parseNode_scalar_branch (fuel : Nat) (c : Char) (cs rest : List Char)
    (hc1 : (c == '[') = false) (hc2 : (c == '\x7b') = false)
    (hall : ∀ d ∈ c :: cs, scalarPred d = true)
    (hr : sdelim rest = true) :
    parseNode (fuel + 1) ((c :: cs) ++ rest) =
      (if c :: cs = ['~'] then some (.null, rest)
       else some (.scalar ⟨c :: cs⟩, rest)) := by
  have htw := takeWhile_app hall (sdelim_takeWhile hr)
  have h1 : ((c :: cs) ++ rest).takeWhile scalarPred = c :: cs := htw.1
  have h2 : ((c :: cs) ++ rest).dropWhile scalarPred = rest := htw.2
  simp only [List.cons_append] at h1 h2
  simp only [parseNode, List.cons_append, h1, h2,
    if_neg (by simpa using hc1), if_neg (by simpa using hc2)]
  simp


lemma parseNode_lbracket (fuel : Nat) (l : List Char) :
    parseNode (fuel + 1) ('[' :: l) =
      (if l.head? = some ']' then some (.seq [], l.tail)
       else match parseItems fuel l with
            | some (ns, rest2) => some (.seq ns, rest2)
            | none => none) := by
  simp [parseNode]

lemma parseNode_lbrace (fuel : Nat) (l : List Char) :
    parseNode (fuel + 1) ('\x7b' :: l) =
      (if l.head? = some '\x7d' then some (.map [], l.tail)
       else match parseEntries fuel l with
            | some (es, rest2) => some (.map es, rest2)
            | none => none) := by
  have h1 : ('\x7b' = '[') = False := by simp
  simp [parseNode, h1]

lemma parseItems_succ (fuel : Nat) (l : List Char) :
    parseItems (fuel + 1) l =
      (match parseNode fuel l with
       | some (n, rest) =>
         if rest.head? = some ',' then
           match parseItems fuel rest.tail with
           | some (ns, rest2) => some (n :: ns, rest2)
           | none => none
         else if rest.head? = some ']' then some ([n], rest.tail)
         else none
       | none => none) := by
  rw [parseItems]

lemma parseEntries_succ (fuel : Nat) (l : List Char) :
    parseEntries (fuel + 1) l =
      (if (l.takeWhile keyPred).isEmpty then none
       else if (l.dropWhile keyPred).head? = some ':' then
         match parseNode fuel (l.dropWhile keyPred).tail with
         | some (n, rest) =>
           if rest.head? = some ',' then
             match parseEntries fuel rest.tail with
             | some (es, rest2) => some ((⟨l.takeWhile keyPred⟩, n) :: es, rest2)
             | none => none
           else if rest.head? = some '\x7d' then
             some ([(⟨l.takeWhile keyPred⟩, n)], rest.tail)
           else none
         | none => none
       else none) := by
  rw [parseEntries]

lemma parse_correct : ∀ fuel : Nat,
    (∀ n rest, WFb n = true → sdelim rest = true → ysize n ≤ fuel →
      parseNode fuel (dumpChars n ++ rest) = some (n, rest)) ∧
    (∀ xs rest, WFbList xs = true → xs ≠ [] → ysizeItems xs ≤ fuel →
      parseItems fuel (dumpItemsChars xs ++ ']' :: rest) = some (xs, rest)) ∧
    (∀ es rest, WFbEntries es = true → es ≠ [] → ysizeEntries es ≤ fuel →
      parseEntries fuel (dumpEntriesChars es ++ '\x7d' :: rest) = some (es, rest)) := by
  intro fuel
  induction fuel with
  | zero =>
    refine ⟨fun n rest _ _ hsz => absurd hsz (by have := ysize_pos n; omega),
      fun xs rest _ hne hsz => absurd hsz (by have := ysizeItems_pos hne; omega),
      fun es rest _ hne hsz => absurd hsz (by have := ysizeEntries_pos hne; omega)⟩
  | succ fuel ih =>
    obtain ⟨ihN, ihI, ihE⟩ := ih
    refine ⟨?_, ?_, ?_⟩
    · -- parseNode
      intro n rest hwf hd hsz
      cases n with
      | null =>
        have hb := parseNode_scalar_branch fuel '~' [] rest (by decide) (by decide)
          (by intro d hd'; simp at hd'; subst hd'; decide) hd
        simpa using hb
      | scalar s =>
        rw [WFb, scalarOK] at hwf
        simp only [Bool.and_eq_true] at hwf
        obtain ⟨⟨hhead, hall⟩, hne⟩ := hwf
        cases hs : s.data with
        | nil => rw [hs] at hhead; simp at hhead
        | cons c cs =>
          rw [hs] at hhead
          simp only [Bool.not_eq_true', Bool.or_eq_false_iff, beq_eq_false_iff_ne,
            ne_eq] at hhead
          have hall' : ∀ d ∈ c :: cs, scalarPred d = true := by
            intro d hd'
            exact List.all_eq_true.mp hall d (by rw [hs]; exact hd')
          have hsne : ¬(c :: cs = ['~']) := by
            intro hcontra
            have hs2 : s = "~" := by
              apply String.ext; rw [hs, hcontra]
            rw [hs2] at hne; simp at hne
          have hdump : dumpChars (.scalar s) = c :: cs := by
            simp [dumpChars, hs]
          have heta : (⟨c :: cs⟩ : String) = s := by
            apply String.ext; rw [hs]
          rw [hdump, parseNode_scalar_branch fuel c cs rest
              (by simpa using hhead.1) (by simpa using hhead.2) hall' hd,
            if_neg hsne, heta]
      | seq xs =>
        cases xs with
        | nil =>
          have hdump : dumpChars (.seq []) ++ rest = '[' :: ']' :: rest := rfl
          rw [hdump, parseNode_lbracket]
          simp
        | cons x xs' =>
          rw [WFb, WFbList, Bool.and_eq_true] at hwf
          have hsz' : ysizeItems (x :: xs') ≤ fuel := by
            rw [ysize] at hsz; omega
          have hitems := ihI (x :: xs') rest
            (by rw [WFbList, Bool.and_eq_true]; exact hwf) (by simp) hsz'
          obtain ⟨c0, cs0, hc0, hc0ne⟩ := @dumpItemsChars_head x xs' hwf.1
          simp only [Bool.or_eq_false_iff, beq_eq_false_iff_ne, ne_eq] at hc0ne
          have hdump : dumpChars (.seq (x :: xs')) ++ rest =
              '[' :: (dumpItemsChars (x :: xs') ++ ']' :: rest) := by
            simp [dumpChars]
          rw [hdump, parseNode_lbracket, if_neg, hitems]
          rw [hc0]
          simp only [List.cons_append, List.head?_cons, Option.some.injEq]
          exact hc0ne.1.2
      | map kvs =>
        cases kvs with
        | nil =>
          have hdump : dumpChars (.map []) ++ rest = '\x7b' :: '\x7d' :: rest := rfl
          rw [hdump, parseNode_lbrace]
          simp
        | cons e es' =>
          obtain ⟨k, v⟩ := e
          rw [WFb, WFbEntries, Bool.and_eq_true, Bool.and_eq_true] at hwf
          have hsz' : ysizeEntries ((k, v) :: es') ≤ fuel := by
            rw [ysize] at hsz; omega
          have hentries := ihE ((k, v) :: es') rest
            (by rw [WFbEntries, Bool.and_eq_true, Bool.and_eq_true]; exact hwf)
            (by simp) hsz'
          obtain ⟨c0, cs0, hc0, hc0k⟩ := @dumpEntriesChars_head k v es' hwf.1.1
          rw [keyPred] at hc0k
          simp only [Bool.not_eq_true', Bool.or_eq_false_iff, beq_eq_false_iff_ne,
            ne_eq] at hc0k
          have hdump : dumpChars (.map ((k, v) :: es')) ++ rest =
              '\x7b' :: (dumpEntriesChars ((k, v) :: es') ++ '\x7d' :: rest) := by
            simp [dumpChars]
          rw [hdump, parseNode_lbrace, if_neg, hentries]
          rw [hc0]
          simp only [List.cons_append, List.head?_cons, Option.some.injEq]
          exact hc0k.2
    · -- parseItems
      intro xs rest hwf hne hsz
      cases xs with
      | nil => exact absurd rfl hne
      | cons x xs' =>
        rw [WFbList, Bool.and_eq_true] at hwf
        obtain ⟨hwx, hwxs⟩ := hwf
        have hszx : ysize x ≤ fuel := by rw [ysizeItems] at hsz; omega
        cases xs' with
        | nil =>
          have hn := ihN x (']' :: rest) hwx (by simp [sdelim]) hszx
          have hdu : dumpItemsChars [x] ++ ']' :: rest = dumpChars x ++ ']' :: rest := by
            simp [dumpItemsChars]
          rw [hdu, parseItems_succ, hn]
          simp
        | cons y ys =>
          have hlist := ihI (y :: ys) rest hwxs (by simp)
            (by rw [ysizeItems] at hsz; omega)
          have hn := ihN x (',' :: (dumpItemsChars (y :: ys) ++ ']' :: rest)) hwx
            (by simp [sdelim]) hszx
          have harr : dumpItemsChars (x :: y :: ys) ++ ']' :: rest =
              dumpChars x ++ ',' :: (dumpItemsChars (y :: ys) ++ ']' :: rest) := by
            simp [dumpItemsChars]
          rw [harr, parseItems_succ, hn]
          simp [hlist]
    · -- parseEntries
      intro es rest hwf hne hsz
      cases es with
      | nil => exact absurd rfl hne
      | cons e es' =>
        obtain ⟨k, v⟩ := e
        rw [WFbEntries, Bool.and_eq_true, Bool.and_eq_true] at hwf
        obtain ⟨⟨hwk, hwv⟩, hwes⟩ := hwf
        have hszv : ysize v ≤ fuel := by rw [ysizeEntries] at hsz; omega
        have hkall : ∀ d ∈ k.data, keyPred d = true := by
          rw [keyOK, Bool.and_eq_true] at hwk
          exact fun d hd' => List.all_eq_true.mp hwk.2 d hd'
        have hkne : (k.data.isEmpty : Bool) = false := by
          rw [keyOK, Bool.and_eq_true] at hwk; simpa using hwk.1
        have heta : (⟨k.data⟩ : String) = k := by apply String.ext; rfl
        cases es' with
        | nil =>
          have harr : dumpEntriesChars [(k, v)] ++ '\x7d' :: rest =
              k.data ++ (':' :: (dumpChars v ++ '\x7d' :: rest)) := by
            simp [dumpEntriesChars]
          have htw := @takeWhile_app keyPred k.data
            (':' :: (dumpChars v ++ '\x7d' :: rest))
            hkall (List.takeWhile_cons_of_neg (by decide))
          have hn := ihN v ('\x7d' :: rest) hwv (by simp [sdelim]) hszv
          rw [harr, parseEntries_succ, htw.1, htw.2]
          rw [if_neg (by simp [hkne])]
          simp [hn, heta]
        | cons e2 es2 =>
          have harr : dumpEntriesChars ((k, v) :: e2 :: es2) ++ '\x7d' :: rest =
              k.data ++ (':' :: (dumpChars v ++
                ',' :: (dumpEntriesChars (e2 :: es2) ++ '\x7d' :: rest))) := by
            simp [dumpEntriesChars]
          have htw := @takeWhile_app keyPred k.data
            (':' :: (dumpChars v ++
              ',' :: (dumpEntriesChars (e2 :: es2) ++ '\x7d' :: rest)))
            hkall (List.takeWhile_cons_of_neg (by decide))
          have hn := ihN v (',' :: (dumpEntriesChars (e2 :: es2) ++ '\x7d' :: rest))
            hwv (by simp [sdelim]) hszv
          have hes := ihE (e2 :: es2) rest hwes (by simp)
            (by rw [ysizeEntries] at hsz; omega)
          rw [harr, parseEntries_succ, htw.1, htw.2]
          rw [if_neg (by simp [hkne])]
          simp [hn, hes, heta]

lemma parseNode_other (fuel : Nat) (c : Char) (rest0 : List Char)
    (hc1 : ¬c = '[') (hc2 : ¬c = '\x7b') :
    parseNode (fuel + 1) (c :: rest0) =
      (if ((c :: rest0).takeWhile scalarPred).isEmpty then none
       else if (c :: rest0).takeWhile scalarPred = ['~'] then
         some (.null, (c :: rest0).dropWhile scalarPred)
       else some (.scalar ⟨(c :: rest0).takeWhile scalarPred⟩,
         (c :: rest0).dropWhile scalarPred)) := by
  simp [parseNode, hc1, hc2]

lemma parse_sound : ∀ fuel : Nat,
    (∀ l n rest, parseNode fuel l = some (n, rest) →
      WFb n = true ∧ l = dumpChars n ++ rest) ∧
    (∀ l ns rest, parseItems fuel l = some (ns, rest) →
      WFbList ns = true ∧ ns ≠ [] ∧ l = dumpItemsChars ns ++ ']' :: rest) ∧
    (∀ l es rest, parseEntries fuel l = some (es, rest) →
      WFbEntries es = true ∧ es ≠ [] ∧ l = dumpEntriesChars es ++ '\x7d' :: rest) := by
  intro fuel
  induction fuel with
  | zero =>
    refine ⟨fun l n rest h => by rw [parseNode] at h; exact absurd h (by simp),
      fun l ns rest h => by rw [parseItems] at h; exact absurd h (by simp),
      fun l es rest h => by rw [parseEntries] at h; exact absurd h (by simp)⟩
  | succ fuel ih =>
    obtain ⟨ihN, ihI, ihE⟩ := ih
    refine ⟨?_, ?_, ?_⟩
    · -- parseNode
      intro l n rest h
      cases l with
      | nil => rw [parseNode] at h; exact absurd h (by simp)
      | cons c rest0 =>
        by_cases hc1 : c = '['
        · subst hc1
          rw [parseNode_lbracket] at h
          by_cases hh : rest0.head? = some ']'
          · rw [if_pos hh] at h
            simp only [Option.some.injEq, Prod.mk.injEq] at h
            obtain ⟨rfl, rfl⟩ := h.symm
            cases rest0 with
            | nil => simp at hh
            | cons c2 t =>
              simp only [List.head?_cons, Option.some.injEq] at hh
              subst hh
              exact ⟨rfl, by simp [dumpChars, dumpItemsChars]⟩
          · rw [if_neg hh] at h
            cases hi : parseItems fuel rest0 with
            | none => rw [hi] at h; simp at h
            | some pr =>
              obtain ⟨ns, rest2⟩ := pr
              rw [hi] at h
              simp only [Option.some.injEq, Prod.mk.injEq] at h
              obtain ⟨rfl, rfl⟩ := h.symm
              obtain ⟨hw, hne, heq⟩ := ihI rest0 ns rest2 hi
              refine ⟨by rw [WFb]; exact hw, ?_⟩
              rw [heq]
              simp [dumpChars]
        · by_cases hc2 : c = '\x7b'
          · subst hc2
            rw [parseNode_lbrace] at h
            by_cases hh : rest0.head? = some '\x7d'
            · rw [if_pos hh] at h
              simp only [Option.some.injEq, Prod.mk.injEq] at h
              obtain ⟨rfl, rfl⟩ := h.symm
              cases rest0 with
              | nil => simp at hh
              | cons c2 t =>
                simp only [List.head?_cons, Option.some.injEq] at hh
                subst hh
                exact ⟨rfl, by simp [dumpChars, dumpEntriesChars]⟩
            · rw [if_neg hh] at h
              cases hi : parseEntries fuel rest0 with
              | none => rw [hi] at h; simp at h
              | some pr =>
                obtain ⟨es, rest2⟩ := pr
                rw [hi] at h
                simp only [Option.some.injEq, Prod.mk.injEq] at h
                obtain ⟨rfl, rfl⟩ := h.symm
                obtain ⟨hw, hne, heq⟩ := ihE rest0 es rest2 hi
                refine ⟨by rw [WFb]; exact hw, ?_⟩
                rw [heq]
                simp [dumpChars]
          · rw [parseNode_other fuel c rest0 hc1 hc2] at h
            have hsplit : (c :: rest0).takeWhile scalarPred ++
                (c :: rest0).dropWhile scalarPred = c :: rest0 :=
              List.takeWhile_append_dropWhile scalarPred (c :: rest0)
            by_cases he : ((c :: rest0).takeWhile scalarPred).isEmpty
            · rw [if_pos he] at h; simp at h
            · rw [if_neg he] at h
              by_cases ht : (c :: rest0).takeWhile scalarPred = ['~']
              · rw [if_pos ht] at h
                simp only [Option.some.injEq, Prod.mk.injEq] at h
                obtain ⟨rfl, rfl⟩ := h.symm
                refine ⟨rfl, ?_⟩
                have : dumpChars YamlNode.null = ['~'] := rfl
                rw [this, ← ht, hsplit]
              · rw [if_neg ht] at h
                simp only [Option.some.injEq, Prod.mk.injEq] at h
                obtain ⟨rfl, rfl⟩ := h.symm
                constructor
                · rw [WFb, scalarOK]
                  have hdata : (⟨(c :: rest0).takeWhile scalarPred⟩ : String).data =
                      (c :: rest0).takeWhile scalarPred := rfl
                  rw [hdata]
                  have hpc : scalarPred c = true := by
                    by_contra hpc
                    rw [List.takeWhile_cons_of_neg (by simpa using hpc)] at he
                    simp at he
                  rw [List.takeWhile_cons_of_pos hpc]
                  simp only [Bool.and_eq_true]
                  refine ⟨⟨by simp [hc1, hc2], ?_⟩, ?_⟩
                  · rw [List.all_eq_true]
                    intro d hd
                    have : d ∈ (c :: rest0).takeWhile scalarPred := by
                      rw [List.takeWhile_cons_of_pos hpc]; exact hd
                    exact List.mem_takeWhile_imp this
                  · rw [← List.takeWhile_cons_of_pos hpc]
                    simp only [Bool.not_eq_true']
                    rw [beq_eq_false_iff_ne]
                    intro hcontra
                    exact ht (congrArg String.data hcontra)
                · have : dumpChars (.scalar ⟨(c :: rest0).takeWhile scalarPred⟩) =
                      (c :: rest0).takeWhile scalarPred := rfl
                  rw [this, hsplit]
    · -- parseItems
      intro l ns rest h
      rw [parseItems_succ] at h
      cases hp : parseNode fuel l with
      | none => rw [hp] at h; simp at h
      | some pr =>
        obtain ⟨n, rest1⟩ := pr
        simp only [hp] at h
        obtain ⟨hwn, hleq⟩ := ihN l n rest1 hp
        by_cases h1 : rest1.head? = some ','
        · rw [if_pos h1] at h
          cases hi : parseItems fuel rest1.tail with
          | none => rw [hi] at h; simp at h
          | some pr2 =>
            obtain ⟨ns', rest2⟩ := pr2
            simp only [hi] at h
            simp only [Option.some.injEq, Prod.mk.injEq] at h
            obtain ⟨rfl, rfl⟩ := h.symm
            obtain ⟨hw', hne', heq'⟩ := ihI rest1.tail ns' rest2 hi
            cases rest1 with
            | nil => simp at h1
            | cons c1 t1 =>
              simp only [List.head?_cons, Option.some.injEq] at h1
              subst h1
              simp only [List.tail_cons] at heq'
              refine ⟨by rw [WFbList, Bool.and_eq_true]; exact ⟨hwn, hw'⟩, by simp, ?_⟩
              rw [hleq, heq']
              cases ns' with
              | nil => exact absurd rfl hne'
              | cons y ys => simp [dumpItemsChars]
        · rw [if_neg h1] at h
          by_cases h2 : rest1.head? = some ']'
          · rw [if_pos h2] at h
            simp only [Option.some.injEq, Prod.mk.injEq] at h
            obtain ⟨rfl, rfl⟩ := h.symm
            cases rest1 with
            | nil => simp at h2
            | cons c1 t1 =>
              simp only [List.head?_cons, Option.some.injEq] at h2
              subst h2
              refine ⟨by rw [WFbList, WFbList]; simp [hwn], by simp, ?_⟩
              rw [hleq]
              simp [dumpItemsChars]
          · rw [if_neg h2] at h; simp at h
    · -- parseEntries
      intro l es rest h
      rw [parseEntries_succ] at h
      by_cases he : (l.takeWhile keyPred).isEmpty
      · rw [if_pos he] at h; simp at h
      · rw [if_neg he] at h
        by_cases h1 : (l.dropWhile keyPred).head? = some ':'
        · rw [if_pos h1] at h
          cases hp : parseNode fuel (l.dropWhile keyPred).tail with
          | none => rw [hp] at h; simp at h
          | some pr =>
            obtain ⟨v, rest1⟩ := pr
            simp only [hp] at h
            obtain ⟨hwv, hveq⟩ := ihN _ v rest1 hp
            have hkOK : keyOK ⟨l.takeWhile keyPred⟩ = true := by
              rw [keyOK, Bool.and_eq_true]
              refine ⟨by simpa using he, ?_⟩
              rw [List.all_eq_true]
              exact fun d hd => List.mem_takeWhile_imp hd
            have hsplit : l.takeWhile keyPred ++ l.dropWhile keyPred = l :=
              List.takeWhile_append_dropWhile keyPred l
            by_cases h2 : rest1.head? = some ','
            · rw [if_pos h2] at h
              cases hq : parseEntries fuel rest1.tail with
              | none => rw [hq] at h; simp at h
              | some pr2 =>
                obtain ⟨es', rest2⟩ := pr2
                simp only [hq] at h
                simp only [Option.some.injEq, Prod.mk.injEq] at h
                obtain ⟨rfl, rfl⟩ := h.symm
                obtain ⟨hw', hne', heq'⟩ := ihE rest1.tail es' rest2 hq
                cases hdw : l.dropWhile keyPred with
                | nil => rw [hdw] at h1; simp at h1
                | cons cd td =>
                  rw [hdw] at h1 hp hsplit hveq
                  simp only [List.head?_cons, Option.some.injEq] at h1
                  subst h1
                  cases rest1 with
                  | nil => simp at h2
                  | cons cr tr =>
                    simp only [List.head?_cons, Option.some.injEq] at h2
                    subst h2
                    simp only [List.tail_cons] at heq' hveq hp
                    refine ⟨?_, by simp, ?_⟩
                    · rw [WFbEntries, Bool.and_eq_true, Bool.and_eq_true]
                      exact ⟨⟨hkOK, hwv⟩, hw'⟩
                    · rw [← hsplit]
                      have hmg : List.takeWhile keyPred
                          (List.takeWhile keyPred l ++ ':' :: td) =
                          List.takeWhile keyPred l :=
                        (takeWhile_app (fun d hd => List.mem_takeWhile_imp hd)
                          (List.takeWhile_cons_of_neg (by decide))).1
                      rw [hmg, hveq, heq']
                      cases es' with
                      | nil => exact absurd rfl hne'
                      | cons e2 es2 => simp [dumpEntriesChars]
            · rw [if_neg h2] at h
              by_cases h3 : rest1.head? = some '\x7d'
              · rw [if_pos h3] at h
                simp only [Option.some.injEq, Prod.mk.injEq] at h
                obtain ⟨rfl, rfl⟩ := h.symm
                cases hdw : l.dropWhile keyPred with
                | nil => rw [hdw] at h1; simp at h1
                | cons cd td =>
                  rw [hdw] at h1 hp hsplit hveq
                  simp only [List.head?_cons, Option.some.injEq] at h1
                  subst h1
                  cases rest1 with
                  | nil => simp at h3
                  | cons cr tr =>
                    simp only [List.head?_cons, Option.some.injEq] at h3
                    subst h3
                    simp only [List.tail_cons] at hveq hp
                    refine ⟨?_, by simp, ?_⟩
                    · rw [WFbEntries, Bool.and_eq_true, Bool.and_eq_true]
                      exact ⟨⟨hkOK, hwv⟩, rfl⟩
                    · rw [← hsplit]
                      have hmg : List.takeWhile keyPred
                          (List.takeWhile keyPred l ++ ':' :: td) =
                          List.takeWhile keyPred l :=
                        (takeWhile_app (fun d hd => List.mem_takeWhile_imp hd)
                          (List.takeWhile_cons_of_neg (by decide))).1
                      rw [hmg, hveq]
                      simp [dumpEntriesChars]
              · rw [if_neg h3] at h; simp at h
        · rw [if_neg h1] at h; simp at h

lemma dump_bound : ∀ k : Nat,
    (∀ n, ysize n = k → WFb n = true → ysize n ≤ (dumpChars n).length) ∧
    (∀ xs, ysizeItems xs = k → WFbList xs = true → xs ≠ [] →
      ysizeItems xs ≤ (dumpItemsChars xs).length + 1) ∧
    (∀ es, ysizeEntries es = k → WFbEntries es = true → es ≠ [] →
      ysizeEntries es ≤ (dumpEntriesChars es).length + 1) := by
  intro k
  induction k using Nat.strong_induction_on with
  | _ k ih =>
    refine ⟨?_, ?_, ?_⟩
    · intro n hk hwf
      cases n with
      | null => simp [ysize, dumpChars]
      | scalar s =>
        rw [WFb, scalarOK] at hwf
        cases hs : s.data with
        | nil => rw [hs] at hwf; simp at hwf
        | cons c cs => simp [ysize, dumpChars, hs]
      | seq xs =>
        cases xs with
        | nil => simp [ysize, ysizeItems, dumpChars, dumpItemsChars]
        | cons x xs' =>
          have hlt : ysizeItems (x :: xs') < k := by
            rw [← hk, ysize]; omega
          have hi := (ih _ hlt).2.1 (x :: xs') rfl (by rw [WFb] at hwf; exact hwf)
            (by simp)
          rw [ysize]
          simp only [dumpChars, List.length_cons, List.length_append]
          omega
      | map kvs =>
        cases kvs with
        | nil => simp [ysize, ysizeEntries, dumpChars, dumpEntriesChars]
        | cons e es' =>
          have hlt : ysizeEntries (e :: es') < k := by
            rw [← hk, ysize]; omega
          have hi := (ih _ hlt).2.2 (e :: es') rfl (by rw [WFb] at hwf; exact hwf)
            (by simp)
          rw [ysize]
          simp only [dumpChars, List.length_cons, List.length_append]
          omega
    · intro xs hk hwf hne
      cases xs with
      | nil => exact absurd rfl hne
      | cons x xs' =>
        rw [WFbList, Bool.and_eq_true] at hwf
        have hsz1 : ysizeItems (x :: xs') = 1 + ysize x + ysizeItems xs' := by
          rw [ysizeItems]
        have hltx : ysize x < k := by rw [← hk]; omega
        have hx := (ih _ hltx).1 x rfl hwf.1
        cases xs' with
        | nil =>
          have e2 : (dumpItemsChars [x]).length = (dumpChars x).length := rfl
          have e3 : ysizeItems ([] : List YamlNode) = 0 := rfl
          omega
        | cons y ys =>
          have hlt2 : ysizeItems (y :: ys) < k := by
            rw [← hk]
            have := ysize_pos x
            omega
          have h2 := (ih _ hlt2).2.1 (y :: ys) rfl hwf.2 (by simp)
          have e2 : (dumpItemsChars (x :: y :: ys)).length =
              (dumpChars x).length + 1 + (dumpItemsChars (y :: ys)).length := by
            simp [dumpItemsChars]; omega
          omega
    · intro es hk hwf hne
      cases es with
      | nil => exact absurd rfl hne
      | cons e es' =>
        obtain ⟨ky, v⟩ := e
        rw [WFbEntries, Bool.and_eq_true, Bool.and_eq_true] at hwf
        have hsz1 : ysizeEntries ((ky, v) :: es') = 1 + ysize v + ysizeEntries es' := by
          rw [ysizeEntries]
        have hltv : ysize v < k := by rw [← hk]; omega
        have hv := (ih _ hltv).1 v rfl hwf.1.2
        cases es' with
        | nil =>
          have e2 : (dumpEntriesChars [(ky, v)]).length =
              ky.data.length + 1 + (dumpChars v).length := by
            simp [dumpEntriesChars]; omega
          have e3 : ysizeEntries ([] : List (String × YamlNode)) = 0 := rfl
          omega
        | cons e2 es2 =>
          have hlt2 : ysizeEntries (e2 :: es2) < k := by
            rw [← hk]
            have := ysize_pos v
            omega
          have h2 := (ih _ hlt2).2.2 (e2 :: es2) rfl hwf.2 (by simp)
          have e4 : (dumpEntriesChars ((ky, v) :: e2 :: es2)).length =
              ky.data.length + 1 + (dumpChars v).length + 1 +
                (dumpEntriesChars (e2 :: es2)).length := by
            simp [dumpEntriesChars]; omega
          omega

lemma yamlLoad_dump {n : YamlNode} (h : WFb n = true) :
    yamlLoad (yamlDump n) = some n := by
  have hb := (dump_bound (ysize n)).1 n rfl h
  have hc := (parse_correct ((dumpChars n).length + 1)).1 n [] h rfl (by omega)
  rw [List.append_nil] at hc
  have hdata : (yamlDump n).data = dumpChars n := rfl
  rw [yamlLoad, hdata, hc]

lemma yamlLoad_sound {s : String} {n : YamlNode} (h : yamlLoad s = some n) :
    WFb n = true ∧ yamlDump n = s := by
  rw [yamlLoad] at h
  cases hp : parseNode (s.data.length + 1) s.data with
  | none => rw [hp] at h; simp at h
  | some pr =>
    obtain ⟨n', rest⟩ := pr
    rw [hp] at h
    cases rest with
    | nil =>
      simp only [Option.some.injEq] at h
      subst h
      obtain ⟨hw, heq⟩ := (parse_sound _).1 _ _ _ hp
      rw [List.append_nil] at heq
      refine ⟨hw, ?_⟩
      apply String.ext
      exact heq.symm
    | cons c t => simp at h

/-! Round-trip law for the derived container converters. -/





lemma parseStable_spec {s : String} (h : parseStable s = true) :
    ∃ n, yamlLoad s = some n ∧ yamlDump n = s ∧ WFb n = true := by
  rw [parseStable] at h
  cases hl : yamlLoad s with
  | none => rw [hl] at h; simp at h
  | some n =>
    rw [hl] at h
    exact ⟨n, rfl, by simpa using h, (yamlLoad_sound hl).1⟩

lemma mapM_some_of_forall₂ {α : Type} (decT : String → Option α)
    {v : List α} {ns : List YamlNode}
    (h : List.Forall₂ (fun a n => decT (yamlDump n) = some a) v ns) :
    ns.mapM (fun item => decT (yamlDump item)) = some v := by
  rw [← List.mapM'_eq_mapM]
  induction h with
  | nil => rfl
  | cons ha _ ihh => simp [List.mapM', ha, ihh]

lemma encode_nodes {α : Type} [DecidableEq α] (encT : α → Option String)
    (decT : String → Option α) :
    ∀ (v : List α), (∀ a ∈ v, elemRT encT decT a = true) →
      ∃ ns, v.mapM (fun item => (encT item).bind yamlLoad) = some ns ∧
        List.Forall₂ (fun a n => decT (yamlDump n) = some a) v ns ∧
        WFbList ns = true := by
  intro v
  induction v with
  | nil => exact fun _ => ⟨[], rfl, .nil, rfl⟩
  | cons a v' ihv =>
    intro h
    have ha := h a (by simp)
    rw [elemRT] at ha
    cases he : encT a with
    | none => rw [he] at ha; simp at ha
    | some s =>
      rw [he] at ha
      simp only [Bool.and_eq_true, decide_eq_true_eq] at ha
      obtain ⟨hdec, hstable⟩ := ha
      obtain ⟨n, hln, hdn, hwn⟩ := parseStable_spec hstable
      obtain ⟨ns', hmap', hrel', hwf'⟩ := ihv (fun b hb => h b (by simp [hb]))
      refine ⟨n :: ns', ?_, ?_, ?_⟩
      · rw [← List.mapM'_eq_mapM] at hmap' ⊢
        simp [List.mapM', he, hln, hmap']
      · exact .cons (by rw [hdn]; exact hdec) hrel'
      · rw [WFbList, Bool.and_eq_true]; exact ⟨hwn, hwf'⟩

lemma vec_roundtrip {α : Type} [DecidableEq α] (encT : α → Option String)
    (decT : String → Option α) (v : List α)
    (h : ∀ a ∈ v, elemRT encT decT a = true) :
    ∃ s, lexCastVecToString encT v = some s ∧
      lexCastStringToVec decT s = some v ∧ parseStable s = true := by
  obtain ⟨ns, hmap, hrel, hwf⟩ := encode_nodes encT decT v h
  have hwfseq : WFb (seqOfNodes ns) = true := by
    cases ns with
    | nil => rfl
    | cons n0 ns' => rw [show seqOfNodes (n0 :: ns') = .seq (n0 :: ns') from rfl, WFb]; exact hwf
  refine ⟨yamlDump (seqOfNodes ns), ?_, ?_, ?_⟩
  · rw [lexCastVecToString, hmap]
  · rw [lexCastStringToVec, yamlLoad_dump hwfseq]
    cases ns with
    | nil =>
      cases hrel
      rfl
    | cons n0 ns' =>
      rw [show seqOfNodes (n0 :: ns') = .seq (n0 :: ns') from rfl]
      exact mapM_some_of_forall₂ decT hrel
  · rw [parseStable, yamlLoad_dump hwfseq]
    simp

lemma lexCastStringToList_eq {α : Type} (decT : String → Option α) :
    lexCastStringToList decT = lexCastStringToVec decT := rfl

lemma lexCastListToString_eq {α : Type} (encT : α → Option String) :
    lexCastListToString encT = lexCastVecToString encT := rfl

/-! Round-trip of the scalar `int` converter pair. -/

lemma digitChar_toNat {d : Nat} (h : d < 10) : (digitChar d).toNat = 48 + d := by
  interval_cases d <;> rfl

lemma digitChar_isDigit {d : Nat} (h : d < 10) : (digitChar d).isDigit = true := by
  interval_cases d <;> decide

lemma digitsToNat_append (l : List Char) (c : Char) :
    digitsToNat (l ++ [c]) = digitsToNat l * 10 + (c.toNat - 48) := by
  rw [digitsToNat, digitsToNat, List.foldl_append]
  rfl

lemma natDigitsRevF_spec : ∀ fuel n, n < fuel →
    digitsToNat (natDigitsRevF fuel n).reverse = n ∧
    (∀ c ∈ natDigitsRevF fuel n, c.isDigit = true) ∧
    natDigitsRevF fuel n ≠ [] := by
  intro fuel
  induction fuel with
  | zero => intro n h; omega
  | succ fuel ih =>
    intro n h
    by_cases h10 : n < 10
    · rw [natDigitsRevF, if_pos h10]
      refine ⟨?_, ?_, by simp⟩
      · rw [List.reverse_singleton]
        rw [show digitsToNat [digitChar n] = 0 * 10 + ((digitChar n).toNat - 48) from rfl]
        rw [digitChar_toNat h10]
        omega
      · intro c hc
        simp only [List.mem_singleton] at hc
        subst hc
        exact digitChar_isDigit h10
    · have hdiv : n / 10 < fuel := by
        have h1 : n / 10 < n := Nat.div_lt_self (by omega) (by omega)
        omega
      obtain ⟨ih1, ih2, ih3⟩ := ih (n / 10) hdiv
      rw [natDigitsRevF, if_neg h10]
      refine ⟨?_, ?_, by simp⟩
      · rw [List.reverse_cons, digitsToNat_append, ih1, digitChar_toNat (Nat.mod_lt n (by omega))]
        omega
      · intro c hc
        simp only [List.mem_cons] at hc
        rcases hc with hc | hc
        · subst hc; exact digitChar_isDigit (Nat.mod_lt n (by omega))
        · exact ih2 c hc

lemma natDigits_spec (n : Nat) :
    digitsToNat (natDigits n) = n ∧
    (∀ c ∈ natDigits n, c.isDigit = true) ∧ natDigits n ≠ [] := by
  obtain ⟨h1, h2, h3⟩ := natDigitsRevF_spec (n + 1) n (by omega)
  rw [natDigits]
  exact ⟨h1, fun c hc => h2 c (List.mem_reverse.mp hc),
    fun hcontra => h3 (by simpa using congrArg List.reverse hcontra)⟩

lemma isDigit_ne {c : Char} (h : c.isDigit = true) :
    ¬c = '-' ∧ ¬c = '+' ∧ scalarPred c = true ∧ ¬c = '[' ∧ ¬c = '\x7b' ∧ ¬c = '~' := by
  rw [Char.isDigit] at h
  simp only [Bool.and_eq_true, decide_eq_true_eq] at h
  have h' : 48 ≤ c.toNat ∧ c.toNat ≤ 57 := h
  have hne : ∀ d : Char, d.toNat < 48 ∨ 57 < d.toNat → ¬c = d := by
    intro d hd hc; subst hc; omega
  refine ⟨hne '-' (by decide), hne '+' (by decide), ?_, hne '[' (by decide),
    hne '\x7b' (by decide), hne '~' (by decide)⟩
  rw [scalarPred]
  have h1 : (c == ',') = false := by
    rw [beq_eq_false_iff_ne]; exact hne ',' (by decide)
  have h2 : (c == ']') = false := by
    rw [beq_eq_false_iff_ne]; exact hne ']' (by decide)
  have h3 : (c == '\x7d') = false := by
    rw [beq_eq_false_iff_ne]; exact hne '\x7d' (by decide)
  rw [h1, h2, h3]
  rfl

lemma parseIntStrict_cons {c : Char} {cs : List Char} {s : String}
    (hs : s.data = c :: cs) :
    parseIntStrict s =
      (if c = '-' then (parseDigits cs).map (fun n => -(n : Int))
       else if c = '+' then (parseDigits cs).map (fun n => (n : Int))
       else (parseDigits (c :: cs)).map (fun n => (n : Int))) := by
  rw [parseIntStrict, hs]

lemma parseDigits_natDigits (n : Nat) : parseDigits (natDigits n) = some n := by
  obtain ⟨h1, h2, h3⟩ := natDigits_spec n
  rw [parseDigits, if_pos]
  · rw [h1]
  · simp only [Bool.and_eq_true, Bool.not_eq_true']
    exact ⟨by simpa using h3, List.all_eq_true.mpr h2⟩

lemma parseIntStrict_intToString (i : Int) :
    parseIntStrict (intToString i) = some i := by
  cases i with
  | ofNat n =>
    obtain ⟨h1, h2, h3⟩ := natDigits_spec n
    cases hd : natDigits n with
    | nil => exact absurd hd h3
    | cons c cs =>
      have hcd : c.isDigit = true := h2 c (by rw [hd]; simp)
      obtain ⟨hm, hp, _, _, _, _⟩ := isDigit_ne hcd
      have hdata : (intToString (Int.ofNat n)).data = c :: cs := by
        rw [intToString]
        show natDigits n = c :: cs
        exact hd
      rw [parseIntStrict_cons hdata, if_neg hm, if_neg hp, ← hd, parseDigits_natDigits]
      rfl
  | negSucc n =>
    have hdata : (intToString (Int.negSucc n)).data = '-' :: natDigits (n + 1) := rfl
    rw [parseIntStrict_cons hdata, if_pos rfl, parseDigits_natDigits]
    show some (-((n + 1 : Nat) : Int)) = some (Int.negSucc n)
    rfl

lemma intToString_scalarOK (i : Int) : scalarOK (intToString i) = true := by
  rw [scalarOK]
  simp only [Bool.and_eq_true]
  cases i with
  | ofNat n =>
    obtain ⟨h1, h2, h3⟩ := natDigits_spec n
    cases hd : natDigits n with
    | nil => exact absurd hd h3
    | cons c cs =>
      have hdata : (intToString (Int.ofNat n)).data = c :: cs := by
        rw [intToString]; show natDigits n = c :: cs; exact hd
      have hcd : c.isDigit = true := h2 c (by rw [hd]; simp)
      obtain ⟨_, _, _, hlb, hbr, hnt⟩ := isDigit_ne hcd
      refine ⟨⟨?_, ?_⟩, ?_⟩
      · rw [hdata]; simp [hlb, hbr]
      · rw [hdata, List.all_eq_true]
        intro d hd'
        have : d ∈ natDigits n := by rw [hd]; exact hd'
        exact (isDigit_ne (h2 d this)).2.2.1
      · simp only [Bool.not_eq_true']
        rw [beq_eq_false_iff_ne]
        intro hcontra
        have : (intToString (Int.ofNat n)).data = ['~'] := by rw [hcontra]
        rw [hdata] at this
        simp only [List.cons.injEq] at this
        exact hnt this.1
  | negSucc n =>
    obtain ⟨h1, h2, h3⟩ := natDigits_spec (n + 1)
    have hdata : (intToString (Int.negSucc n)).data = '-' :: natDigits (n + 1) := rfl
    refine ⟨⟨?_, ?_⟩, ?_⟩
    · rw [hdata]; rfl
    · rw [hdata, List.all_eq_true]
      intro d hd'
      simp only [List.mem_cons] at hd'
      rcases hd' with hd' | hd'
      · subst hd'; decide
      · exact (isDigit_ne (h2 d hd')).2.2.1
    · simp only [Bool.not_eq_true']
      rw [beq_eq_false_iff_ne]
      intro hcontra
      have : (intToString (Int.negSucc n)).data = ['~'] := by rw [hcontra]
      rw [hdata] at this
      simp at this

lemma scalar_loadable {s : String} (h : scalarOK s = true) :
    yamlLoad s = some (.scalar s) := by
  have hload := @yamlLoad_dump (.scalar s) (by rw [WFb]; exact h)
  rwa [show yamlDump (.scalar s) = s from rfl] at hload

lemma elemRT_int (i : Int) :
    elemRT (fun j => some (intToString j)) parseIntStrict i = true := by
  rw [elemRT]
  show (decide (parseIntStrict (intToString i) = some i) &&
    parseStable (intToString i)) = true
  rw [Bool.and_eq_true, decide_eq_true_eq]
  refine ⟨parseIntStrict_intToString i, ?_⟩
  rw [parseStable, scalar_loadable (intToString_scalarOK i)]
  exact beq_self_eq_true _

lemma elemRT_vec {α : Type} [DecidableEq α] (encT : α → Option String)
    (decT : String → Option α) (v : List α)
    (h : ∀ a ∈ v, elemRT encT decT a = true) :
    elemRT (lexCastVecToString encT) (lexCastStringToVec decT) v = true := by
  obtain ⟨s, he, hd, hp⟩ := vec_roundtrip encT decT v h
  rw [elemRT, he]
  show (decide (lexCastStringToVec decT s = some v) && parseStable s) = true
  rw [Bool.and_eq_true, decide_eq_true_eq]
  exact ⟨hd, hp⟩

/-! Flattener structure: paths extension, refinement to a fold of the
pre-order listing, de-duplication. -/

namespace Config

lemma replaceFirst_paths (name : String) (node : YamlNode) :
    ∀ out : List (String × YamlNode),
      (replaceFirst out name node).map Prod.fst = out.map Prod.fst := by
  intro out
  induction out with
  | nil => rfl
  | cons p rest ih =>
    obtain ⟨k, v⟩ := p
    rw [replaceFirst]
    by_cases hk : k = name
    · rw [if_pos hk]; simp
    · rw [if_neg hk]; simp [ih]

lemma recordNode_paths (name : String) (node : YamlNode)
    (out : List (String × YamlNode)) :
    (recordNode name node out).map Prod.fst = out.map Prod.fst ∨
      (recordNode name node out).map Prod.fst = out.map Prod.fst ++ [name] := by
  rw [recordNode]
  by_cases h : out.any (fun p => p.1 == name)
  · left; rw [if_pos h]; exact replaceFirst_paths name node out
  · right; rw [if_neg h]; simp

lemma traversal_fold : ∀ k : Nat,
    (∀ node name out, ysize node = k →
      TraversalNode node name out =
        (preorderNode node name).foldl (fun acc p => recordNode p.1 p.2 acc) out) ∧
    (∀ kvs name out, ysizeEntries kvs = k →
      TraversalEntries kvs name out =
        (preorderEntries kvs name).foldl (fun acc p => recordNode p.1 p.2 acc) out) ∧
    (∀ xs name i out, ysizeItems xs = k →
      TraversalList xs name i out =
        (preorderList xs name i).foldl (fun acc p => recordNode p.1 p.2 acc) out) := by
  intro k
  induction k using Nat.strong_induction_on with
  | _ k ih =>
    refine ⟨?_, ?_, ?_⟩
    · intro node name out hk
      cases node with
      | null => rfl
      | scalar s => rfl
      | seq xs =>
        have hlt : ysizeItems xs < k := by rw [← hk, ysize]; omega
        rw [show TraversalNode (.seq xs) name out =
          TraversalList xs name 0 (recordNode name (.seq xs) out) from rfl]
        rw [(ih _ hlt).2.2 xs name 0 (recordNode name (.seq xs) out) rfl]
        rfl
      | map kvs =>
        have hlt : ysizeEntries kvs < k := by rw [← hk, ysize]; omega
        rw [show TraversalNode (.map kvs) name out =
          TraversalEntries kvs name (recordNode name (.map kvs) out) from rfl]
        rw [(ih _ hlt).2.1 kvs name (recordNode name (.map kvs) out) rfl]
        rfl
    · intro kvs name out hk
      cases kvs with
      | nil => rfl
      | cons e rest =>
        obtain ⟨kk, child⟩ := e
        have hszc : ysize child < k := by rw [← hk, ysizeEntries]; omega
        have hszr : ysizeEntries rest < k := by
          rw [← hk, ysizeEntries]; have := ysize_pos child; omega
        rw [TraversalEntries, (ih _ hszr).2.1 rest name _ rfl,
          (ih _ hszc).1 child _ out rfl]
        rw [preorderEntries, List.foldl_append]
    · intro xs name i out hk
      cases xs with
      | nil => rfl
      | cons x rest =>
        have hszx : ysize x < k := by rw [← hk, ysizeItems]; omega
        have hszr : ysizeItems rest < k := by
          rw [← hk, ysizeItems]; have := ysize_pos x; omega
        rw [TraversalList, (ih _ hszr).2.2 rest name (i + 1) _ rfl,
          (ih _ hszx).1 x _ out rfl]
        rw [preorderList, List.foldl_append]

lemma TraversalNode_eq_fold (node : YamlNode) (name : String)
    (out : List (String × YamlNode)) :
    TraversalNode node name out =
      (preorderNode node name).foldl (fun acc p => recordNode p.1 p.2 acc) out :=
  (traversal_fold (ysize node)).1 node name out rfl

lemma recordNode_nodup {name : String} {node : YamlNode}
    {out : List (String × YamlNode)} (h : (out.map Prod.fst).Nodup) :
    ((recordNode name node out).map Prod.fst).Nodup := by
  rw [recordNode]
  by_cases hany : out.any (fun p => p.1 == name)
  · rw [if_pos hany, replaceFirst_paths]; exact h
  · rw [if_neg hany]
    simp only [List.map_append, List.map_cons, List.map_nil]
    rw [List.nodup_append]
    refine ⟨h, List.nodup_singleton name, ?_⟩
    intro a ha hb
    simp only [List.mem_singleton] at hb
    subst hb
    obtain ⟨p, hp, hpa⟩ := List.mem_map.mp ha
    exact hany (List.any_eq_true.mpr ⟨p, hp, by simp [hpa]⟩)

lemma foldl_record_nodup :
    ∀ (l : List (String × YamlNode)) (out : List (String × YamlNode)),
      (out.map Prod.fst).Nodup →
      ((l.foldl (fun acc p => recordNode p.1 p.2 acc) out).map Prod.fst).Nodup := by
  intro l
  induction l with
  | nil => exact fun out h => h
  | cons p rest ih =>
    intro out h
    exact ih _ (recordNode_nodup h)

lemma traversal_paths_nodup (node : YamlNode) :
    ((TraversalNode node "" []).map Prod.fst).Nodup := by
  rw [TraversalNode_eq_fold]
  exact foldl_record_nodup _ [] (by simp)

lemma foldl_record_paths_extend :
    ∀ (l : List (String × YamlNode)) (out : List (String × YamlNode)),
      ∃ ext, ((l.foldl (fun acc p => recordNode p.1 p.2 acc) out).map Prod.fst) =
        out.map Prod.fst ++ ext := by
  intro l
  induction l with
  | nil => exact fun out => ⟨[], by simp⟩
  | cons p rest ih =>
    intro out
    obtain ⟨ext1, hext1⟩ := ih (recordNode p.1 p.2 out)
    rcases recordNode_paths p.1 p.2 out with hr | hr
    · exact ⟨ext1, by rw [List.foldl_cons, hext1, hr]⟩
    · exact ⟨[p.1] ++ ext1, by rw [List.foldl_cons, hext1, hr]; simp⟩

lemma traversal_root_path (node : YamlNode) :
    ∃ m rest, TraversalNode node "" [] = ("", m) :: rest := by
  rw [TraversalNode_eq_fold]
  obtain ⟨tail0, htail⟩ : ∃ t, preorderNode node "" = ("", node) :: t := by
    cases node <;> exact ⟨_, rfl⟩
  rw [htail, List.foldl_cons]
  rw [show recordNode "" node [] = [("", node)] from rfl]
  obtain ⟨ext, hext⟩ := foldl_record_paths_extend tail0 [("", node)]
  cases hres : tail0.foldl (fun acc p => recordNode p.1 p.2 acc) [("", node)] with
  | nil => rw [hres] at hext; simp at hext
  | cons q qs =>
    rw [hres] at hext
    simp only [List.map_cons, List.map_nil] at hext
    have hq : q.1 = "" := by
      have h2 := congrArg (fun l => l.head?) hext
      simpa using h2
    refine ⟨q.2, qs, ?_⟩
    rw [← hq]


end Config

/-! Registry structure lemmas. -/

namespace Config

lemma Lookup_cons (k : String) (e : ConfigEntry) (rest : ConfigVarMap)
    (name : String) :
    Lookup name ((k, e) :: rest) = if k = name then some e else Lookup name rest := by
  by_cases hk : k = name
  · rw [if_pos hk, Lookup, List.find?_cons_of_pos _ (by simpa using hk)]
  · rw [if_neg hk, Lookup, List.find?_cons_of_neg _ (by simpa using hk), Lookup]

lemma updateReg_fst (name text : String) : ∀ st : ConfigVarMap,
    (updateReg name text st).map Prod.fst = st.map Prod.fst := by
  intro st
  induction st with
  | nil => rfl
  | cons p rest ih =>
    simp only [updateReg, List.map_cons] at ih ⊢
    congr 1
    split <;> rfl

lemma lookup_updateReg (name nm text : String) : ∀ st : ConfigVarMap,
    Lookup name (updateReg nm text st) =
      (if nm = name then (Lookup name st).map (fun e => applyFromString e text)
       else Lookup name st) := by
  intro st
  induction st with
  | nil =>
    show Lookup name ([] : ConfigVarMap) =
      if nm = name then
        Option.map (fun e => applyFromString e text) (Lookup name ([] : ConfigVarMap))
      else Lookup name ([] : ConfigVarMap)
    rw [show Lookup name ([] : ConfigVarMap) = none from rfl]
    split <;> rfl
  | cons p rest ih =>
    obtain ⟨k, e⟩ := p
    rw [updateReg, List.map_cons]
    have htail : (rest.map fun p =>
        if p.1 = nm then (p.1, applyFromString p.2 text) else p) =
        updateReg nm text rest := rfl
    by_cases hk : k = nm
    · rw [if_pos hk]
      by_cases hn : k = name
      · have hnm : nm = name := by rw [← hk, hn]
        rw [if_pos hnm, Lookup_cons, if_pos hn, Lookup_cons, if_pos hn]
        rfl
      · have hnm' := hn
        rw [Lookup_cons]
        simp only [hn, if_false]
        rw [htail, ih, Lookup_cons]
        simp only [hn, if_false]
    · rw [if_neg hk]
      by_cases hn : k = name
      · have hnm : ¬nm = name := fun hcontra => hk (by rw [hn, hcontra])
        rw [Lookup_cons, if_pos hn, if_neg hnm, Lookup_cons, if_pos hn]
      · rw [Lookup_cons, if_neg hn, htail, ih, Lookup_cons]
        simp only [hn, if_false]

lemma lookup_loadStep (st : ConfigVarMap) (p : String × YamlNode) (name : String) :
    Lookup name (loadStep st p) =
      if p.1 = name then
        (Lookup name st).map (fun e => applyFromString e (yamlDump p.2))
      else Lookup name st := by
  rw [loadStep]
  cases hl : Lookup p.1 st with
  | some e => rw [lookup_updateReg]
  | none =>
    by_cases hp : p.1 = name
    · rw [if_pos hp]
      rw [hp] at hl
      rw [hl]
      rfl
    · rw [if_neg hp]

lemma lookup_load_fold : ∀ (items : List (String × YamlNode)) (st : ConfigVarMap)
    (name : String),
    Lookup name (items.foldl loadStep st) =
      items.foldl (fun acc p =>
        if p.1 = name then acc.map (fun e => applyFromString e (yamlDump p.2))
        else acc) (Lookup name st) := by
  intro items
  induction items with
  | nil => intro st name; rfl
  | cons p rest ih =>
    intro st name
    rw [List.foldl_cons, List.foldl_cons, ih, lookup_loadStep]

lemma loadStep_fst (st : ConfigVarMap) (p : String × YamlNode) :
    (loadStep st p).map Prod.fst = st.map Prod.fst := by
  rw [loadStep]
  cases Lookup p.1 st with
  | some e => exact updateReg_fst p.1 (yamlDump p.2) st
  | none => rfl

lemma load_fold_fst : ∀ (items : List (String × YamlNode)) (st : ConfigVarMap),
    (items.foldl loadStep st).map Prod.fst = st.map Prod.fst := by
  intro items
  induction items with
  | nil => intro st; rfl
  | cons p rest ih =>
    intro st
    rw [List.foldl_cons, ih, loadStep_fst]

lemma LoadFromYAML_keys (root : YamlNode) (st : ConfigVarMap) :
    (LoadFromYAML root st).map Prod.fst = st.map Prod.fst :=
  load_fold_fst _ st

lemma loadStep_unmatched {st : ConfigVarMap} {p : String × YamlNode}
    (h : Lookup p.1 st = none) : loadStep st p = st := by
  rw [loadStep, h]

lemma applyFromString_fail {e : ConfigEntry} {text : String}
    (h : lexDecode e.type text = none) : applyFromString e text = e := by
  rw [applyFromString, ConfigVar.fromText, h]

lemma applyFromString_fields (e : ConfigEntry) (text : String) :
    (applyFromString e text).type = e.type ∧
    (applyFromString e text).var.m_name = e.var.m_name ∧
    (applyFromString e text).var.m_description = e.var.m_description := by
  rw [applyFromString, ConfigVar.fromText]
  cases lexDecode e.type text <;> exact ⟨rfl, rfl, rfl⟩

end Config

/-! Whole-lifecycle registry invariant. -/



lemma lower_fix {c : Char} (hc : Config.validNameChars.contains c = true) :
    c.toLower = c := by
  have hmem : c ∈ Config.validNameChars := by simpa using hc
  fin_cases hmem <;> rfl

lemma toLowerStr_valid {name : String} (h : Config.validName name = true) :
    toLowerStr name = name := by
  apply String.ext
  show name.data.map Char.toLower = name.data
  rw [Config.validName, List.all_eq_true] at h
  have hgen : ∀ l : List Char, (∀ c ∈ l, Config.validNameChars.contains c = true) →
      l.map Char.toLower = l := by
    intro l hl
    induction l with
    | nil => rfl
    | cons c cs ih =>
      rw [List.map_cons, lower_fix (hl c (by simp)),
        ih (fun d hd => hl d (by simp [hd]))]
  exact hgen name.data h

lemma insertReg_mem {name : String} {e : ConfigEntry} :
    ∀ {st : ConfigVarMap} {q : String × ConfigEntry},
      q ∈ Config.insertReg name e st → q ∈ st ∨ q = (name, e) := by
  intro st
  induction st with
  | nil => intro q hq; right; simpa [Config.insertReg] using hq
  | cons p rest ih =>
    intro q hq
    obtain ⟨k, e'⟩ := p
    rw [Config.insertReg] at hq
    by_cases hk : k = name
    · rw [if_pos hk] at hq
      rcases List.mem_cons.mp hq with hq | hq
      · right; rw [hq, hk]
      · left; exact List.mem_cons_of_mem _ hq
    · rw [if_neg hk] at hq
      rcases List.mem_cons.mp hq with hq | hq
      · left; rw [hq]; exact List.mem_cons_self _ _
      · rcases ih hq with h | h
        · left; exact List.mem_cons_of_mem _ h
        · right; exact h

lemma loadStep_mem {st : ConfigVarMap} {p : String × YamlNode}
    {q : String × ConfigEntry} (hq : q ∈ Config.loadStep st p) :
    ∃ r ∈ st, q.1 = r.1 ∧ q.2.var.m_name = r.2.var.m_name := by
  rw [Config.loadStep] at hq
  cases hl : Config.Lookup p.1 st with
  | none => rw [hl] at hq; exact ⟨q, hq, rfl, rfl⟩
  | some e =>
    rw [hl] at hq
    rw [Config.updateReg] at hq
    obtain ⟨r, hr, hqr⟩ := List.mem_map.mp hq
    refine ⟨r, hr, ?_⟩
    by_cases hrp : r.1 = p.1
    · rw [if_pos hrp] at hqr
      rw [← hqr]
      exact ⟨rfl, (Config.applyFromString_fields r.2 (yamlDump p.2)).2.1⟩
    · rw [if_neg hrp] at hqr
      rw [← hqr]
      exact ⟨rfl, rfl⟩

lemma load_fold_mem : ∀ (items : List (String × YamlNode)) (st : ConfigVarMap)
    (q : String × ConfigEntry),
    q ∈ items.foldl Config.loadStep st →
    ∃ r ∈ st, q.1 = r.1 ∧ q.2.var.m_name = r.2.var.m_name := by
  intro items
  induction items with
  | nil => intro st q hq; exact ⟨q, hq, rfl, rfl⟩
  | cons p rest ih =>
    intro st q hq
    rw [List.foldl_cons] at hq
    obtain ⟨r, hr, h1, h2⟩ := ih _ q hq
    obtain ⟨r2, hr2, h3, h4⟩ := loadStep_mem hr
    exact ⟨r2, hr2, by rw [h1, h3], by rw [h2, h4]⟩

lemma RegInv_applyOp {st : ConfigVarMap} (h : RegInv st) (op : RegOp) :
    RegInv (applyOp st op) := by
  cases op with
  | lookupOp _ => exact h
  | lookupTypedOp _ _ => exact h
  | declareOp t name v d =>
    rw [applyOp]
    cases hd : Config.LookupDeclare t name v d st with
    | none => exact h
    | some pr =>
      obtain ⟨cv, st'⟩ := pr
      rw [Config.LookupDeclare] at hd
      cases hlt : Config.LookupTyped t name st with
      | some tmp =>
        rw [hlt] at hd
        simp only [Option.some.injEq, Prod.mk.injEq] at hd
        rw [← hd.2]
        exact h
      | none =>
        rw [hlt] at hd
        by_cases hv : Config.validName name
        · rw [if_pos hv] at hd
          simp only [Option.some.injEq, Prod.mk.injEq] at hd
          intro q hq
          rw [← hd.2] at hq
          rcases insertReg_mem hq with hmem | heq
          · exact h q hmem
          · rw [heq]
            exact ⟨hv, toLowerStr_valid hv,
              show toLowerStr name = name from toLowerStr_valid hv⟩
        · rw [if_neg hv] at hd
          exact absurd hd (by simp)
  | loadOp root =>
    rw [applyOp]
    intro q hq
    obtain ⟨r, hr, h1, h2⟩ := load_fold_mem _ st q hq
    obtain ⟨hv, hl, hn⟩ := h r hr
    exact ⟨by rw [h1]; exact hv, by rw [h1]; exact hl, by rw [h1, h2, hn]⟩

lemma RegInv_runOps (ops : List RegOp) : RegInv (runOps ops) := by
  have hgen : ∀ (ops : List RegOp) (st : ConfigVarMap), RegInv st →
      RegInv (ops.foldl applyOp st) := by
    intro ops
    induction ops with
    | nil => exact fun st h => h
    | cons op rest ih => exact fun st h => ih _ (RegInv_applyOp h op)
  exact hgen ops [] (fun p hp => absurd hp (List.not_mem_nil p))

/-! Claim theorems. -/



/-- C1 (amended): a declare-or-fetch call for an already-registered name
returns the existing entry unchanged (first value and description kept,
mapping not replaced) when the requested type matches the stored type;
a call with a different requested value type passes the typed lookup as a
miss and, for a valid name, replaces the mapping with a fresh variable. -/
theorem claim_C1 :
    (∀ (t : CType) (name : String) (v : CVal t) (d : String)
      (st : ConfigVarMap) (cv : ConfigVar (CVal t)),
      Config.LookupTyped t name st = some cv →
      Config.LookupDeclare t name v d st = some (cv, st)) ∧
    (∀ (t : CType) (name : String) (v : CVal t) (d : String)
      (st : ConfigVarMap) (e : ConfigEntry),
      Config.Lookup name st = some e → e.type ≠ t →
      Config.validName name = true →
      Config.LookupDeclare t name v d st =
        some (mkConfigVar name v d,
          Config.insertReg name ⟨t, mkConfigVar name v d⟩ st)) := by
  constructor
  · intro t name v d st cv h
    rw [Config.LookupDeclare, h]
  · intro t name v d st e hl ht hv
    have hlt : Config.LookupTyped t name st = none := by
      rw [Config.LookupTyped, hl]
      exact dif_neg ht
    rw [Config.LookupDeclare, hlt, if_pos hv]

/-- C1 witness: a second same-type declare-or-fetch for "x" returns the
stored variable (value 1, description "d") and leaves the registry
unchanged. -/
theorem claim_C1_witness :
    Config.LookupDeclare .tInt "x" (5 : Int) "e"
        [("x", ⟨.tInt, ⟨"x", "d", 1⟩⟩)] =
      some (⟨"x", "d", 1⟩, [("x", ⟨.tInt, ⟨"x", "d", 1⟩⟩)]) :=
  claim_C1.1 .tInt "x" 5 "e" _ _ rfl

/-- C1 counterexample: declare-or-fetch for the already-registered name "x"
with a different requested value type (string instead of int) replaces the
registry's mapping with a fresh variable; afterwards the original int
variable is gone, contradicting the claim's "for any requested value type
... the registry's mapping for that name is not replaced". -/
theorem claim_C1_counterexample :
    Config.LookupDeclare .tString "x" "s" "e"
        [("x", ⟨.tInt, ⟨"x", "d", 1⟩⟩)] =
      some (⟨"x", "e", "s"⟩, [("x", ⟨.tString, ⟨"x", "e", "s"⟩⟩)]) ∧
    Config.LookupTyped .tInt "x" [("x", ⟨.tString, ⟨"x", "e", "s"⟩⟩)] = none := by
  constructor <;> rfl

/-- C2 (amended): for the derived sequence and list converters, a text that
fails to parse (or whose element decode fails) yields a caller-visible
failure, but a text that parses into a non-sequence node is logged and an
empty container is returned as success. -/
theorem claim_C2 :
    (∀ (α : Type) (decT : String → Option α) (s : String),
      yamlLoad s = none →
      lexCastStringToVec decT s = none ∧ lexCastStringToList decT s = none) ∧
    (∀ (α : Type) (decT : String → Option α) (s : String) (n : YamlNode),
      yamlLoad s = some n → (∀ items, n ≠ .seq items) →
      lexCastStringToVec decT s = some [] ∧
      lexCastStringToList decT s = some []) ∧
    (∀ (α : Type) (decT : String → Option α) (s : String)
      (items : List YamlNode),
      yamlLoad s = some (.seq items) →
      lexCastStringToVec decT s = items.mapM (fun item => decT (yamlDump item)) ∧
      lexCastStringToList decT s =
        items.mapM (fun item => decT (yamlDump item))) := by
  refine ⟨?_, ?_, ?_⟩
  · intro α decT s h
    exact ⟨by rw [lexCastStringToVec, h], by rw [lexCastStringToList, h]⟩
  · intro α decT s n h hn
    constructor
    · rw [lexCastStringToVec, h]
      cases n with
      | null => rfl
      | scalar s' => rfl
      | seq xs => exact absurd rfl (hn xs)
      | map kvs => rfl
    · rw [lexCastStringToList, h]
      cases n with
      | null => rfl
      | scalar s' => rfl
      | seq xs => exact absurd rfl (hn xs)
      | map kvs => rfl
  · intro α decT s items h
    exact ⟨by rw [lexCastStringToVec, h], by rw [lexCastStringToList, h]⟩

/-- C2 witness: an unparseable text fails, and a parseable non-sequence
text ("5") returns the empty container as success. -/
theorem claim_C2_witness :
    lexCastStringToVec parseIntStrict "5" = some ([] : List Int) ∧
    lexCastStringToList parseIntStrict "5" = some ([] : List Int) :=
  claim_C2.2.1 Int parseIntStrict "5" (.scalar "5") rfl
    (fun _ h => YamlNode.noConfusion h)

/-- C2 counterexample: decoding "5" — a text that parses but not into a
sequence-shaped node — silently returns the empty vector as success
(and `none`, the modelled exception, is a different value), contradicting
"fails with a caller-visible conversion failure ... never a partially-built
or empty container silently returned as success". -/
theorem claim_C2_counterexample :
    lexCastStringToVec parseIntStrict "5" = some ([] : List Int) ∧
    some ([] : List Int) ≠ (none : Option (List Int)) := by
  exact ⟨rfl, by simp⟩

/-- C3: round-trip law. The int scalar converter pair round-trips for every
value, and for any element converter pair, every finite value whose
elements round-trip is encoded by the derived vector/list converter to a
text that decodes back to the original value; the composed converters
themselves satisfy the element round-trip property, giving the law at
every nesting depth. -/
theorem claim_C3 :
    (∀ i : Int, parseIntStrict (intToString i) = some i ∧
      elemRT (fun j => some (intToString j)) parseIntStrict i = true) ∧
    (∀ (α : Type) [DecidableEq α] (encT : α → Option String)
      (decT : String → Option α) (v : List α),
      (∀ a ∈ v, elemRT encT decT a = true) →
      ∃ s, lexCastVecToString encT v = some s ∧
        lexCastStringToVec decT s = some v ∧
        lexCastListToString encT v = some s ∧
        lexCastStringToList decT s = some v ∧
        elemRT (lexCastVecToString encT) (lexCastStringToVec decT) v = true ∧
        elemRT (lexCastListToString encT) (lexCastStringToList decT) v = true) := by
  constructor
  · exact fun i => ⟨parseIntStrict_intToString i, elemRT_int i⟩
  · intro α _ encT decT v h
    obtain ⟨s, he, hd, hp⟩ := vec_roundtrip encT decT v h
    refine ⟨s, he, hd, ?_, ?_, elemRT_vec encT decT v h, ?_⟩
    · rw [lexCastListToString_eq]; exact he
    · rw [lexCastStringToList_eq]; exact hd
    · rw [lexCastListToString_eq, lexCastStringToList_eq]
      exact elemRT_vec encT decT v h

/-- C3 witness: the law applied to a depth-3 nested container
(vector of vector of vector of int). -/
theorem claim_C3_witness :
    ∃ s,
      lexCastVecToString
          (lexCastVecToString (lexCastVecToString (fun j => some (intToString j))))
          [[[1, 2], []], [[3]]] = some s ∧
      lexCastStringToVec
          (lexCastStringToVec (lexCastStringToVec parseIntStrict)) s =
        some [[[1, 2], []], [[3]]] ∧
      lexCastListToString
          (lexCastVecToString (lexCastVecToString (fun j => some (intToString j))))
          [[[1, 2], []], [[3]]] = some s ∧
      lexCastStringToList
          (lexCastStringToVec (lexCastStringToVec parseIntStrict)) s =
        some [[[1, 2], []], [[3]]] ∧
      elemRT
        (lexCastVecToString
          (lexCastVecToString (lexCastVecToString (fun j => some (intToString j)))))
        (lexCastStringToVec (lexCastStringToVec (lexCastStringToVec parseIntStrict)))
        [[[1, 2], []], [[3]]] = true ∧
      elemRT
        (lexCastListToString
          (lexCastVecToString (lexCastVecToString (fun j => some (intToString j)))))
        (lexCastStringToList (lexCastStringToVec (lexCastStringToVec parseIntStrict)))
        [[[1, 2], []], [[3]]] = true :=
  claim_C3.2 (List (List Int))
    (lexCastVecToString (lexCastVecToString (fun j => some (intToString j))))
    (lexCastStringToVec (lexCastStringToVec parseIntStrict))
    [[[1, 2], []], [[3]]] (by decide)

/-- C4: the flattener records the root under the empty path (the first
entry's path is always empty, carrying the root node); a map child of the
empty path gets the key alone as its path; a root-level sequence gets
always-dot-joined decimal indices, hence a leading dot; and flattening
the map (a -> (b -> 1, c -> [2, 3])) yields exactly the paths "", "a",
"a.b", "a.c", "a.c.0", "a.c.1" with the scalar leaves 1, 2, 3. -/
theorem claim_C4 :
    (∀ node : YamlNode, ∃ m rest,
      Config.TraversalNode node "" [] = ("", m) :: rest) ∧
    (∀ s t : String,
      Config.TraversalNode (.seq [.scalar s, .scalar t]) "" [] =
        [("", .seq [.scalar s, .scalar t]), (".0", .scalar s),
         (".1", .scalar t)]) ∧
    (∀ s : String,
      Config.TraversalNode (.map [("k", .scalar s)]) "" [] =
        [("", .map [("k", .scalar s)]), ("k", .scalar s)]) ∧
    (Config.TraversalNode exTree "" [] =
      [("", exTree),
       ("a", .map [("b", .scalar "1"), ("c", .seq [.scalar "2", .scalar "3"])]),
       ("a.b", .scalar "1"),
       ("a.c", .seq [.scalar "2", .scalar "3"]),
       ("a.c.0", .scalar "2"),
       ("a.c.1", .scalar "3")]) :=
  ⟨Config.traversal_root_path, fun _ _ => rfl, fun _ => rfl, rfl⟩

/-- C5: the flattener is exactly the in-place-de-duplicating fold of the
depth-first pre-order listing of the tree (so output order is the
document's own order); the resulting path list never contains a path
twice; and on the colliding tree (a -> (b -> 1), "a.b" -> 2) the earlier
"a.b" entry is overwritten in place (last write wins, first position and
list length preserved) instead of a duplicate being appended. -/
theorem claim_C5 :
    (∀ (node : YamlNode) (name : String) (out : List (String × YamlNode)),
      Config.TraversalNode node name out =
        (preorderNode node name).foldl
          (fun acc p => Config.recordNode p.1 p.2 acc) out) ∧
    (∀ node : YamlNode,
      ((Config.TraversalNode node "" []).map Prod.fst).Nodup) ∧
    (Config.TraversalNode collTree "" [] =
      [("", collTree), ("a", .map [("b", .scalar "1")]),
       ("a.b", .scalar "2")]) :=
  ⟨Config.TraversalNode_eq_fold, Config.traversal_paths_nodup, rfl⟩

/-- C6 (amended): declare-or-fetch for a not-yet-registered name succeeds
and inserts a fresh variable exactly when every character of the supplied
name (validated as given, before any lower-casing) is in [a-z0-9._] —
upper-case letters are rejected, not canonicalized, and the empty name is
accepted; otherwise the call signals invalid-argument and no entry is
created. -/
theorem claim_C6 :
    ∀ (t : CType) (name : String) (v : CVal t) (d : String)
      (st : ConfigVarMap),
      Config.Lookup name st = none →
      ((Config.validName name = true →
        Config.LookupDeclare t name v d st =
          some (mkConfigVar name v d,
            Config.insertReg name ⟨t, mkConfigVar name v d⟩ st)) ∧
       (Config.validName name = false →
        Config.LookupDeclare t name v d st = none)) := by
  intro t name v d st hl
  have hlt : Config.LookupTyped t name st = none := by
    rw [Config.LookupTyped, hl]
  constructor
  · intro hv
    rw [Config.LookupDeclare, hlt, if_pos hv]
  · intro hv
    rw [Config.LookupDeclare, hlt, if_neg (by simp [hv])]

/-- C6 witness: a valid lower-case dotted name is inserted; a name with a
space is rejected with no entry created. -/
theorem claim_C6_witness :
    Config.LookupDeclare .tInt "server.port" (8080 : Int) "d" [] =
      some (mkConfigVar "server.port" (8080 : Int) "d",
        Config.insertReg "server.port"
          ⟨.tInt, mkConfigVar "server.port" (8080 : Int) "d"⟩ []) ∧
    Config.LookupDeclare .tInt "bad name" (0 : Int) "d" [] = none :=
  ⟨(claim_C6 .tInt "server.port" 8080 "d" [] rfl).1 rfl,
   (claim_C6 .tInt "bad name" 0 "d" [] rfl).2 rfl⟩

/-- C6 counterexample: the name "A" lower-cases to "a", which matches
^[a-z0-9._]+$, yet the declaration is rejected (the raw name is validated
against the lower-case-only charset), contradicting "letters of either
case ... accepted, canonicalized by lower-casing". -/
theorem claim_C6_counterexample :
    Config.LookupDeclare .tInt "A" (0 : Int) "" [] = none ∧
    Config.validName (toLowerStr "A") = true := by
  constructor <;> rfl

/-- C7: a flattened pair whose path is not registered leaves the registry
unchanged (and loads never create or remove keys); a pair whose path is
registered but whose node's text fails to decode leaves that variable's
entry unchanged; and the final value of each name is a fold over only its
own matching pairs, independent of every other variable's updates. -/
theorem claim_C7 :
    (∀ (st : ConfigVarMap) (p : String × YamlNode),
      Config.Lookup p.1 st = none → Config.loadStep st p = st) ∧
    (∀ (root : YamlNode) (st : ConfigVarMap),
      (Config.LoadFromYAML root st).map Prod.fst = st.map Prod.fst) ∧
    (∀ (st : ConfigVarMap) (p : String × YamlNode) (name : String)
      (e : ConfigEntry),
      Config.Lookup name st = some e →
      lexDecode e.type (yamlDump p.2) = none →
      Config.Lookup name (Config.loadStep st p) = some e) ∧
    (∀ (root : YamlNode) (st : ConfigVarMap) (name : String),
      Config.Lookup name (Config.LoadFromYAML root st) =
        (Config.TraversalNode root "" []).foldl
          (fun acc p =>
            if p.1 = name then
              acc.map (fun e => Config.applyFromString e (yamlDump p.2))
            else acc)
          (Config.Lookup name st)) := by
  refine ⟨?_, ?_, ?_, ?_⟩
  · exact fun st p h => Config.loadStep_unmatched h
  · exact fun root st => Config.LoadFromYAML_keys root st
  · intro st p name e hl hd
    rw [Config.lookup_loadStep]
    by_cases hp : p.1 = name
    · rw [if_pos hp, hl, Option.map_some', Config.applyFromString_fail hd]
    · rw [if_neg hp, hl]
  · intro root st name
    rw [Config.LoadFromYAML, Config.lookup_load_fold]

/-- C7 witness: an unmatched path is ignored, and a matched path whose
text does not decode as an int leaves the stored entry unchanged. -/
theorem claim_C7_witness :
    Config.loadStep [("x", ⟨CType.tInt, ⟨"x", "d", 1⟩⟩)] ("y", .scalar "1") =
      [("x", ⟨CType.tInt, ⟨"x", "d", 1⟩⟩)] ∧
    Config.Lookup "x"
        (Config.loadStep [("x", ⟨CType.tInt, ⟨"x", "d", 1⟩⟩)]
          ("x", .scalar "oops")) =
      some ⟨CType.tInt, ⟨"x", "d", 1⟩⟩ :=
  ⟨claim_C7.1 _ ("y", .scalar "1") rfl,
   claim_C7.2.2.1 _ ("x", .scalar "oops") "x" ⟨CType.tInt, ⟨"x", "d", 1⟩⟩ rfl rfl⟩

/-- C8: fromString replaces the held value only when decode succeeds and
then returns true; on decode failure it returns false with the previous
value untouched; toString returns the encoding on success and the exact
sentinel "<error>" when encoding fails; both are total (no exception
escapes). -/
theorem claim_C8 :
    ∀ (T : Type) (cv : ConfigVar T) (enc : T → Option String)
      (dec : String → Option T) (val : String),
      (∀ v, dec val = some v →
        cv.fromText dec val = ({ cv with m_value := v }, true)) ∧
      (dec val = none → cv.fromText dec val = (cv, false)) ∧
      (enc cv.m_value = none → cv.toText enc = "<error>") ∧
      (∀ s, enc cv.m_value = some s → cv.toText enc = s) := by
  intro T cv enc dec val
  refine ⟨?_, ?_, ?_, ?_⟩
  · intro v h; rw [ConfigVar.fromText, h]
  · intro h; rw [ConfigVar.fromText, h]
  · intro h; rw [ConfigVar.toText, h]
  · intro s h; rw [ConfigVar.toText, h]

/-- C8 witness: concrete successful and failing decodes on an int variable,
and a failing and a succeeding encode. -/
theorem claim_C8_witness :
    ConfigVar.fromText ⟨"x", "d", (1 : Int)⟩ parseIntStrict "7" =
      (⟨"x", "d", 7⟩, true) ∧
    ConfigVar.fromText ⟨"x", "d", (1 : Int)⟩ parseIntStrict "oops" =
      (⟨"x", "d", 1⟩, false) ∧
    ConfigVar.toText ⟨"x", "d", (1 : Int)⟩ (fun _ => none) = "<error>" ∧
    ConfigVar.toText ⟨"x", "d", (1 : Int)⟩ (fun i => some (intToString i)) = "1" :=
  ⟨(claim_C8 Int ⟨"x", "d", 1⟩ (fun _ => none) parseIntStrict "7").1 7 rfl,
   (claim_C8 Int ⟨"x", "d", 1⟩ (fun _ => none) parseIntStrict "oops").2.1 rfl,
   (claim_C8 Int ⟨"x", "d", 1⟩ (fun _ => none) parseIntStrict "oops").2.2.1 rfl,
   (claim_C8 Int ⟨"x", "d", 1⟩ (fun i => some (intToString i)) parseIntStrict
     "oops").2.2.2 "1" rfl⟩

/-- C9: the typed lookup returns absent when the name was registered with a
different type, which is observably the same result as for a name never
registered; when the stored type matches the requested type it returns the
stored variable; the operation is a total function (never asserts or
raises). -/
theorem claim_C9 :
    ∀ (t2 : CType) (name name' : String) (st : ConfigVarMap)
      (e : ConfigEntry),
      (Config.Lookup name st = some e → e.type ≠ t2 →
        Config.LookupTyped t2 name st = none) ∧
      (Config.Lookup name' st = none →
        Config.LookupTyped t2 name' st = none) ∧
      (Config.Lookup name st = some e → ∀ (h : e.type = t2),
        Config.LookupTyped t2 name st = some (h ▸ e.var)) := by
  intro t2 name name' st e
  refine ⟨?_, ?_, ?_⟩
  · intro hl ht
    rw [Config.LookupTyped, hl]
    exact dif_neg ht
  · intro hl
    rw [Config.LookupTyped, hl]
  · intro hl h
    rw [Config.LookupTyped, hl]
    exact dif_pos h

/-- C9 witness: a string-typed lookup of the int-typed "x" is none, equal
to the lookup of the never-declared "nope"; the int-typed lookup returns
the stored variable. -/
theorem claim_C9_witness :
    Config.LookupTyped .tString "x" [("x", ⟨CType.tInt, ⟨"x", "d", 1⟩⟩)] = none ∧
    Config.LookupTyped .tString "nope" [("x", ⟨CType.tInt, ⟨"x", "d", 1⟩⟩)] = none ∧
    Config.LookupTyped .tInt "x" [("x", ⟨CType.tInt, ⟨"x", "d", 1⟩⟩)] =
      some ⟨"x", "d", 1⟩ :=
  ⟨(claim_C9 .tString "x" "nope" [("x", ⟨CType.tInt, ⟨"x", "d", 1⟩⟩)]
      ⟨CType.tInt, ⟨"x", "d", 1⟩⟩).1 rfl (by simp),
   (claim_C9 .tString "x" "nope" [("x", ⟨CType.tInt, ⟨"x", "d", 1⟩⟩)]
      ⟨CType.tInt, ⟨"x", "d", 1⟩⟩).2.1 rfl,
   (claim_C9 .tInt "x" "nope" [("x", ⟨CType.tInt, ⟨"x", "d", 1⟩⟩)]
      ⟨CType.tInt, ⟨"x", "d", 1⟩⟩).2.2 rfl rfl⟩

/-- C10: after any operation sequence from the empty registry, every key
is made of canonical characters, lower-casing is the identity on it, and
it equals the stored variable's name; and LoadFromYAML never inserts or
removes a key. -/
theorem claim_C10 :
    (∀ (ops : List RegOp) (p : String × ConfigEntry), p ∈ runOps ops →
      Config.validName p.1 = true ∧ toLowerStr p.1 = p.1 ∧
      p.2.var.m_name = p.1) ∧
    (∀ (root : YamlNode) (st : ConfigVarMap),
      (Config.LoadFromYAML root st).map Prod.fst = st.map Prod.fst) :=
  ⟨fun ops p hp => RegInv_runOps ops p hp,
   fun root st => Config.LoadFromYAML_keys root st⟩

/-- C10 witness: the invariant evaluated on the registry produced by one
declaration, and key preservation on a concrete load. -/
theorem claim_C10_witness :
    (Config.validName "x" = true ∧ toLowerStr "x" = "x" ∧
      (⟨CType.tInt, ⟨"x", "d", (1 : Int)⟩⟩ : ConfigEntry).var.m_name = "x") ∧
    (Config.LoadFromYAML (YamlNode.map [("x", YamlNode.scalar "7")])
        [("x", (⟨CType.tInt, ⟨"x", "d", (1 : Int)⟩⟩ : ConfigEntry))]).map Prod.fst =
      [("x", (⟨CType.tInt, ⟨"x", "d", (1 : Int)⟩⟩ : ConfigEntry))].map Prod.fst :=
  ⟨claim_C10.1 [RegOp.declareOp CType.tInt "x" (1 : Int) "d"]
      ("x", (⟨CType.tInt, ⟨"x", "d", (1 : Int)⟩⟩ : ConfigEntry))
      (List.Mem.head _),
   claim_C10.2 (YamlNode.map [("x", YamlNode.scalar "7")])
      [("x", (⟨CType.tInt, ⟨"x", "d", (1 : Int)⟩⟩ : ConfigEntry))]⟩

end ConfigSpec
